import Mathlib

/- Shallow embedding of the phylogeny / lineage core of the wcecoli
colony-analysis repository: `src/phylogeny.py` (`make_ete_trees`,
`plot_phylogeny`) and the lineage-trace loop of
`src/expression_survival.py` (`plot_expression_survival_lineage_traces`).

Modelling conventions:
- Python strings are lists of characters (`Str`).
- Python dicts are association lists with the most recent binding first;
  lookup takes the first match, so a later insertion shadows an earlier one,
  exactly like overwriting a dict entry.
- Python sets are duplicate-free lists (in insertion order; every statement
  about them is order-insensitive: membership, subset, emptiness).
- Python float times are modelled as rationals (the claims under study are
  about order comparisons and set membership only).
- A raised exception is `Except.error`. -/

/-- Python strings, modelled as lists of characters. -/
abbrev Str := List Char

/-- Longest common prefix of two strings (helper for `commonStem`). -/
def lcp2 : Str → Str → Str
  | a :: as, b :: bs => if a = b then a :: lcp2 as bs else []
  | _, _ => []

/-- Embeds `os.path.commonprefix`, called at `phylogeny.py:31`: the longest
common prefix of a list of strings, with the empty string for an empty list. -/
def commonStem : List Str → Str
  | [] => []
  | s :: ss => ss.foldl lcp2 s

/-- Lexicographic comparison of strings by character code point, as Python
compares strings (used by `sorted` at `phylogeny.py:33`). -/
def strLe : Str → Str → Bool
  | [], _ => true
  | _ :: _, [] => false
  | a :: as, b :: bs =>
    if a.toNat < b.toNat then true
    else if b.toNat < a.toNat then false
    else strLe as bs

/-- Propositional form of `strLe`. -/
def strLeP (a b : Str) : Prop := strLe a b = true

instance : DecidableRel strLeP := fun a b => inferInstanceAs (Decidable (strLe a b = true))

/-- Embeds Python `sorted` on strings (`phylogeny.py:33`). Python sorted is a
stable sort; on strings the order is total and antisymmetric, so the sorted
permutation is unique and any correct sort computes it. -/
def sortedIds (ids : List Str) : List Str := List.insertionSort strLeP ids

/-- Whitespace characters stripped by Python `int()` (ASCII fragment:
space and the control characters 9-13). -/
def isPySpace (c : Char) : Bool :=
  c = ' ' || c = '\t' || c = '\n' || c = '\u000B' || c = '\u000C' || c = '\r'

/-- Body of a Python integer literal after sign: one or more decimal digits,
with single underscores allowed between digit groups (`digitsUnd` checks the
first character is a digit). -/
def digitsUndRest : Str → Bool
  | [] => true
  | c :: rest =>
    if c.isDigit then digitsUndRest rest
    else if c = '_' then
      match rest with
      | d :: rest2 => d.isDigit && digitsUndRest rest2
      | [] => false
    else false

/-- Nonempty decimal-digit string with single underscores between digits. -/
def digitsUnd : Str → Bool
  | [] => false
  | c :: rest => c.isDigit && digitsUndRest rest

/-- Surrounding whitespace stripped, as Python `int()` strips it. -/
def pyStripped (s : Str) : Str :=
  ((s.dropWhile isPySpace).reverse.dropWhile isPySpace).reverse

/-- The stripped string with one leading sign removed, if any. -/
def pySignless (s : Str) : Str :=
  match pyStripped s with
  | c :: rest => if c = '+' || c = '-' then rest else pyStripped s
  | [] => []

/-- Embeds the acceptance condition of Python `int(s)` (base 10), called at
`phylogeny.py:38`: optional surrounding whitespace, an optional single sign,
then a nonempty digit string with single underscores between digits.
This models the ASCII fragment of the CPython parser (CPython additionally
accepts Unicode digits and whitespace, which do not occur in this
agent identifiers of this repository). -/
def pyIntParses (s : Str) : Bool := digitsUnd (pySignless s)

/-- Suffix ("phylogeny id") of an agent identifier: the identifier with the
common stem stripped from the front (`agent_id[len(stem):]`,
`phylogeny.py:36`). -/
def sfx (stem s : Str) : Str := s.drop stem.length

/-- The condition under which `make_ete_trees` raises for an agent id
(`phylogeny.py:37-44`): the suffix is nonempty and `int()` rejects it. -/
def badSuffix (stem a : Str) : Bool :=
  !(sfx stem a).isEmpty && !pyIntParses (sfx stem a)

/-- The `ValueError` raised at `phylogeny.py:40-43`; its message names the
offending agent id and the computed stem, which we keep as fields. -/
structure MalformedIdentifier where
  agent_id : Str
  stem : Str
deriving DecidableEq

instance {ε α : Type} [DecidableEq ε] [DecidableEq α] : DecidableEq (Except ε α) := fun a b =>
  match a, b with
  | .error e1, .error e2 =>
    if h : e1 = e2 then isTrue (by rw [h]) else isFalse (fun hc => h (by injection hc))
  | .ok v1, .ok v2 =>
    if h : v1 = v2 then isTrue (by rw [h]) else isFalse (fun hc => h (by injection hc))
  | .error _, .ok _ => isFalse (fun hc => nomatch hc)
  | .ok _, .error _ => isFalse (fun hc => nomatch hc)

/-- One ete3 `TreeNode` of the arena: its name and the indices (creation
order) of its children, in attachment order (`add_child` appends). -/
structure TreeNode where
  name : Str
  children : List Nat
deriving DecidableEq

/-- State of the construction loop of `make_ete_trees` (`phylogeny.py:32-52`):
the arena of created nodes in creation order, the suffix-to-node dict
`id_node_map`, and the list of root indices. -/
structure BuildState where
  arena : List TreeNode
  idNodeMap : List (Str × Nat)
  roots : List Nat
deriving DecidableEq

/-- Dict lookup on the association list (first, i.e. most recent, binding
wins: this is exactly the overwrite semantics of a Python dict). -/
def mapFind : List (Str × Nat) → Str → Option Nat
  | [], _ => none
  | (k, v) :: rest, key => if k = key then some v else mapFind rest key

/-- Mutation `parent.add_child(...)` (`phylogeny.py:47`): append child index
`c` to the children of the node at index `p`. -/
def addChild (arena : List TreeNode) (p c : Nat) : List TreeNode :=
  match arena[p]? with
  | some n => arena.set p ⟨n.name, n.children ++ [c]⟩
  | none => arena

/-- One iteration of the loop body of `make_ete_trees`
(`phylogeny.py:35-52`): check the suffix parses as an integer, then either
attach a new child node to the node found for the parent suffix, or create a
new root; finally record the suffix-to-node binding. -/
def processAgent (stem : Str) (st : BuildState) (agent_id : Str) :
    Except MalformedIdentifier BuildState :=
  if badSuffix stem agent_id then
    .error ⟨agent_id, stem⟩
  else
    let phylogeny_id := sfx stem agent_id
    let parent_phylo_id := phylogeny_id.dropLast
    match mapFind st.idNodeMap parent_phylo_id with
    | some pidx =>
        .ok ⟨addChild st.arena pidx st.arena.length ++ [⟨agent_id, []⟩],
             (phylogeny_id, st.arena.length) :: st.idNodeMap,
             st.roots⟩
    | none =>
        .ok ⟨st.arena ++ [⟨agent_id, []⟩],
             (phylogeny_id, st.arena.length) :: st.idNodeMap,
             st.roots ++ [st.arena.length]⟩

/-- The loop of `make_ete_trees` over the sorted agent ids; the first raised
`ValueError` aborts the whole call. -/
def runAgents (stem : Str) : BuildState → List Str → Except MalformedIdentifier BuildState
  | st, [] => .ok st
  | st, a :: rest =>
    match processAgent stem st a with
    | .error e => .error e
    | .ok st2 => runAgents stem st2 rest

/-- Embeds `make_ete_trees` (`phylogeny.py:18-53`): compute the stem, sort
the ids, and run the construction loop from the empty state. The returned
state carries the arena, the final map, and the list of roots. -/
def make_ete_trees (agent_ids : List Str) : Except MalformedIdentifier BuildState :=
  runAgents (commonStem agent_ids) ⟨[], [], []⟩ (sortedIds agent_ids)

/-- Preorder traversal (node before its children, children in attachment
order) of the subtree rooted at arena index `i`, as ete3
`traverse("preorder")` enumerates it; `fuel` bounds the recursion depth and
`arena.length` is always enough because every child index exceeds its
parent. -/
def preorderIdx (arena : List TreeNode) : Nat → Nat → List Nat
  | 0, _ => []
  | fuel + 1, i =>
    match arena[i]? with
    | none => []
    | some n => i :: n.children.flatMap (preorderIdx arena fuel)

/-- Name of the node at arena index `i`. -/
def nameAt (arena : List TreeNode) (i : Nat) : Str :=
  (arena[i]?.map TreeNode.name).getD []

/-- Indices of all nodes of all returned trees, roots in order, each tree in
preorder. -/
def visitIdx (st : BuildState) : List Nat :=
  st.roots.flatMap (preorderIdx st.arena st.arena.length)

/-- Names of all nodes of all returned trees, in traversal order. -/
def forestNames (st : BuildState) : List Str :=
  (visitIdx st).map (nameAt st.arena)

/-- Names of the returned roots, in order. -/
def rootNamesOf (st : BuildState) : List Str :=
  st.roots.map (nameAt st.arena)

/-- There is an edge from arena index `p` to arena index `c`. -/
def EdgeIn (arena : List TreeNode) (p c : Nat) : Prop :=
  ∃ n, arena[p]? = some n ∧ c ∈ n.children

/-- Every edge goes from a node to a later-created node inside the arena. -/
def okArena (arena : List TreeNode) : Prop :=
  ∀ p c, EdgeIn arena p c → p < c ∧ c < arena.length

/-- One timepoint of the raw simulation data: its time and the `agents`
sub-mapping, each agent paired with the value found at the path
`("boundary", "dead")` if present (`get_in(agent_data, PATH_TO_DEAD, False)`
defaults a missing path to `False`). -/
structure Timepoint where
  time : ℚ
  agents : List (Str × Option Bool)
deriving DecidableEq

/-- Embeds `max(data.keys())` (`phylogeny.py:82`); junk value 0 on empty
data, where the Python code would raise (theorems assume nonempty data). -/
def endTime : List Timepoint → ℚ
  | [] => 0
  | tp :: rest => rest.foldl (fun m x => max m x.time) tp.time

/-- The window test of `phylogeny.py:87`:
`time_range[0] * end_time <= time <= time_range[1] * end_time`. -/
def inWindow (tr : ℚ × ℚ) (et t : ℚ) : Prop :=
  tr.1 * et ≤ t ∧ t ≤ tr.2 * et

instance (tr : ℚ × ℚ) (et t : ℚ) : Decidable (inWindow tr et t) :=
  inferInstanceAs (Decidable (_ ∧ _))

/-- Python set insertion: add `a` unless already present. -/
def setAdd (s : List Str) (a : Str) : List Str :=
  if a ∈ s then s else s ++ [a]

/-- Python set union `s |= set(l)`: insert every element of `l` into `s`. -/
def setUnion (s l : List Str) : List Str := l.foldl setAdd s

/-- Body of the survival-classification loop of `plot_phylogeny`
(`phylogeny.py:87-89`): for a timepoint inside the window, add every present
agent to `in_time_range_ids` (first component) and every agent whose dead
flag is truthy to `dead_ids` (second component); a timepoint outside the
window changes nothing. -/
def classifyStep (tr : ℚ × ℚ) (et : ℚ) (acc : List Str × List Str)
    (tp : Timepoint) : List Str × List Str :=
  if inWindow tr et tp.time then
    (setUnion acc.1 (tp.agents.map Prod.fst),
     setUnion acc.2 ((tp.agents.filter (fun pr => pr.2.getD false)).map Prod.fst))
  else acc

/-- The survival-classification loop of `plot_phylogeny`
(`phylogeny.py:79-89`), returning `(in_time_range_ids, dead_ids)`. -/
def classifySurvival (data : List Timepoint) (tr : ℚ × ℚ) :
    List Str × List Str :=
  data.foldl (classifyStep tr (endTime data)) ([], [])

/-- The set of all agent ids over all timepoints (`phylogeny.py:83-85`:
`agent_ids |= set(agents_data.keys())`), listed in some duplicate-free order
(Python iterates the set in an unspecified order; `make_ete_trees` is
order-independent). -/
def agentIdsOf (data : List Timepoint) : List Str :=
  (data.flatMap (fun tp => tp.agents.map Prod.fst)).dedup

/-- Rows of the survival report built at `phylogeny.py:126-130`: one row per
agent of `in_time_range_ids`, paired with `0 if agent in dead_ids else 1`. -/
def reportRows (observed dead : List Str) : List (Str × Nat) :=
  observed.map (fun a => (a, if a ∈ dead then 0 else 1))

/-- A cell of the report table: a string or an integer. -/
inductive Cell where
  | str (s : Str)
  | nat (n : Nat)
deriving DecidableEq

/-- The `pd.DataFrame` call with dict keys `agents` and `survival`
of `phylogeny.py:131`: named columns, in dict order. -/
def buildReport (observed dead : List Str) : List (Str × List Cell) :=
  [("agents".toList, (reportRows observed dead).map (fun pr => Cell.str pr.1)),
   ("survival".toList, (reportRows observed dead).map (fun pr => Cell.nat pr.2))]

/-- Failure modes of `plot_phylogeny`: the propagated `ValueError` from
`make_ete_trees`, or the `assert len(trees) == 1` at `phylogeny.py:92`. -/
inductive PlotError where
  | malformedId (e : MalformedIdentifier)
  | assertionFailed
deriving DecidableEq

/-- The data part of `plot_phylogeny` (`phylogeny.py:56-133`): classify
survival over the window, build the trees from all observed agent ids,
assert that exactly one tree was returned, and build the survival report.
Rendering and styling are external collaborators and carry no data the
claims mention. The `assert agents_data is not None` of `phylogeny.py:85`
holds structurally in this model, where every timepoint carries its agents
mapping. -/
def plot_phylogeny (data : List Timepoint) (tr : ℚ × ℚ) :
    Except PlotError (BuildState × List (Str × List Cell)) :=
  let sets := classifySurvival data tr
  match make_ete_trees (agentIdsOf data) with
  | .error e => .error (.malformedId e)
  | .ok st =>
    if st.roots.length = 1 then
      .ok (st, buildReport sets.1 sets.2)
    else .error .assertionFailed

/-- Boolean string-prefix test (helper for the lineage-trace statements). -/
def startsWith : Str → Str → Bool
  | [], _ => true
  | _ :: _, [] => false
  | p :: ps, s :: ss => p = s && startsWith ps ss

/-- The candidate ancestors enumerated by the lineage-trace loop of
`expression_survival.py:326-327`: `agent[:i]` for `i in
range(len(agent) + 1)`, i.e. every prefix of the agent id from the empty
string up to the id itself. -/
def ancestorCandidates (agent : Str) : List Str :=
  (List.range (agent.length + 1)).map (fun i => agent.take i)

/-- The candidates actually traced (`expression_survival.py:328-331`): a
candidate is kept iff its timeseries path is present in the observed data;
an absent ancestor is skipped, never an error. -/
def tracedAncestors (observed : List Str) (agent : Str) : List Str :=
  (ancestorCandidates agent).filter (fun a => decide (a ∈ observed))

/-- Follows the words of the spec (section 4.3, `ancestor_chain`), kept for
comparison against the enumeration in the code: the ids formed by
`stem + suffix[:i]` for `i = 0 .. len(suffix)`, in root-to-descendant
order. -/
def chainFromSpec (stem d : Str) : List Str :=
  (List.range (d.length + 1)).map (fun i => stem ++ d.take i)

/-- The node index `i` holds the most recent node (largest index) whose
suffix is `k`: this is what the dict binding `id_node_map[k]` points to. -/
def lastWith (stem : Str) (arena : List TreeNode) (k : Str) (i : Nat) : Prop :=
  i < arena.length ∧ sfx stem (nameAt arena i) = k ∧
    ∀ j, i < j → j < arena.length → sfx stem (nameAt arena j) ≠ k

/-- The node created at index `i` started a new root: no earlier-created
node suffix equals the dropLast of its suffix. -/
def newRootAt (stem : Str) (arena : List TreeNode) (i : Nat) : Bool :=
  decide (∀ j, j < i →
    sfx stem (nameAt arena j) ≠ (sfx stem (nameAt arena i)).dropLast)

/-- Invariant of the construction loop of `make_ete_trees` after the agents
of `P` (in processing order) have been handled, with computed stem `stem`:
the arena holds exactly one node per processed agent in processing order;
the dict binds a suffix to the most recently created node with that suffix;
every edge attaches a later node to the most recent node whose suffix is the
dropLast of the child suffix; the root list is exactly the (increasing)
list of indices whose parent suffix had not occurred earlier; and the
preorder traversals of the roots visit every created node exactly once. -/
structure MasterInv (stem : Str) (P : List Str) (st : BuildState) : Prop where
  names : st.arena.map TreeNode.name = P
  mapSome : ∀ k i, mapFind st.idNodeMap k = some i → lastWith stem st.arena k i
  mapNone : ∀ k, mapFind st.idNodeMap k = none →
    ∀ j, j < st.arena.length → sfx stem (nameAt st.arena j) ≠ k
  edges : ∀ p c, EdgeIn st.arena p c → p < c ∧ c < st.arena.length ∧
    (sfx stem (nameAt st.arena c)).dropLast = sfx stem (nameAt st.arena p) ∧
    ∀ j, p < j → j < c →
      sfx stem (nameAt st.arena j) ≠ sfx stem (nameAt st.arena p)
  rootsIdx : st.roots =
    (List.range st.arena.length).filter (newRootAt stem st.arena)
  cover : (visitIdx st).Perm (List.range st.arena.length)

/-- Example input of the single-root test case of the spec. -/
def exIds7 : List Str :=
  ["agent".toList, "agent0".toList, "agent1".toList, "agent00".toList, "agent01".toList]

/-- The tree returned for `exIds7` (used by concrete witnesses). -/
def stEx7 : BuildState := (make_ete_trees exIds7).toOption.getD ⟨[], [], []⟩

/-- Example input whose second id has the non-digit remainder `"+5"`, which
Python `int()` nevertheless accepts. -/
def exIds3c : List Str := ["agent".toList, "agent+5".toList]

/-- The malformed-suffix example of the spec: remainder `"X"` is rejected. -/
def exIdsX : List Str := ["agent".toList, "agentX".toList]

/-- Example input with two lineage roots (stem `"a"`, suffixes `"0"`, `"1"`,
neither parent suffix occurring elsewhere). -/
def exIds9 : List Str := ["a0".toList, "a1".toList]

/-- Example input with a duplicated id: `"agent0"` occurs twice, and
`"agent00"` is processed after both occurrences. -/
def exIds10 : List Str :=
  ["agent".toList, "agent0".toList, "agent0".toList, "agent00".toList]

/-- The state built from `exIds10` (used by concrete witnesses). -/
def stEx10 : BuildState := (make_ete_trees exIds10).toOption.getD ⟨[], [], []⟩

/-- Example snapshot data: two timepoints; at time 10 agent `"agent0"` is
flagged dead and `"agent1"` is alive; at time 0 only `"agent"` exists. -/
def exData4 : List Timepoint :=
  [⟨0, [("agent".toList, none)]⟩,
   ⟨10, [("agent0".toList, some true), ("agent1".toList, none)]⟩]

/-- Example snapshot data with a single agent, alive. -/
def exData5 : List Timepoint := [⟨0, [("agent".toList, some false)]⟩]

/-- Example observed set for the lineage-trace witness. -/
def exObs6 : List Str := ["agent".toList, "agent0".toList, "agent01".toList]

/- ===================== Theorems =====================
String order, common stem, and integer-parse lemmas. -/

theorem strLe_total : ∀ a b : Str, strLe a b = true ∨ strLe b a = true
  | [], _ => .inl rfl
  | _ :: _, [] => .inr rfl
  | a :: as, b :: bs => by
    rcases Nat.lt_trichotomy a.toNat b.toNat with h | h | h
    · left; simp [strLe, h]
    · have h1 : ¬ a.toNat < b.toNat := by omega
      have h2 : ¬ b.toNat < a.toNat := by omega
      rcases strLe_total as bs with ih | ih
      · left; simp [strLe, h1, h2, ih]
      · right; simp [strLe, h1, h2, ih]
    · right; simp [strLe, h, Nat.lt_asymm h]

theorem strLe_trans : ∀ {a b c : Str}, strLe a b = true → strLe b c = true → strLe a c = true
  | [], _, _, _, _ => rfl
  | _ :: _, [], _, hab, _ => by simp [strLe] at hab
  | _ :: _, _ :: _, [], _, hbc => by simp [strLe] at hbc
  | a :: as, b :: bs, c :: cs, hab, hbc => by
    by_cases h1 : a.toNat < b.toNat
    · by_cases h2 : b.toNat < c.toNat
      · simp [strLe, Nat.lt_trans h1 h2]
      · by_cases h3 : c.toNat < b.toNat
        · simp [strLe, h2, h3] at hbc
        · have : a.toNat < c.toNat := by omega
          simp [strLe, this]
    · by_cases h1b : b.toNat < a.toNat
      · simp [strLe, h1, h1b] at hab
      · simp [strLe, h1, h1b] at hab
        by_cases h2 : b.toNat < c.toNat
        · have : a.toNat < c.toNat := by omega
          simp [strLe, this]
        · by_cases h3 : c.toNat < b.toNat
          · simp [strLe, h2, h3] at hbc
          · simp [strLe, h2, h3] at hbc
            have h4 : ¬ a.toNat < c.toNat := by omega
            have h5 : ¬ c.toNat < a.toNat := by omega
            simp [strLe, h4, h5, strLe_trans hab hbc]

theorem strLe_antisymm : ∀ {a b : Str}, strLe a b = true → strLe b a = true → a = b
  | [], [], _, _ => rfl
  | [], _ :: _, _, hba => by simp [strLe] at hba
  | _ :: _, [], hab, _ => by simp [strLe] at hab
  | a :: as, b :: bs, hab, hba => by
    by_cases h1 : a.toNat < b.toNat
    · simp [strLe, h1, Nat.lt_asymm h1] at hba
    · by_cases h2 : b.toNat < a.toNat
      · simp [strLe, h1, h2] at hab
      · simp [strLe, h1, h2] at hab hba
        have hn : a.toNat = b.toNat := by omega
        have hc : a = b := Char.ext (UInt32.toNat.inj hn)
        rw [hc, strLe_antisymm hab hba]

theorem strLe_self_append : ∀ (a t : Str), strLe a (a ++ t) = true
  | [], t => rfl
  | a :: as, t => by simp [strLe, Nat.lt_irrefl, strLe_self_append as t]

theorem pre_antisymm {a b : Str} (h1 : ∃ t, a = b ++ t) (h2 : ∃ t, b = a ++ t) :
    a = b := by
  obtain ⟨t, ht⟩ := h1
  obtain ⟨u, hu⟩ := h2
  have hlen : a.length = b.length + t.length := by rw [ht]; simp
  have hlen2 : b.length = a.length + u.length := by rw [hu]; simp
  have ht0 : t = [] := List.length_eq_zero.mp (by omega)
  rw [ht, ht0, List.append_nil]

theorem lcp2_pre_left : ∀ a b : Str, ∃ t, a = lcp2 a b ++ t
  | [], _ => ⟨[], rfl⟩
  | a :: as, [] => ⟨a :: as, rfl⟩
  | a :: as, b :: bs => by
    by_cases h : a = b
    · obtain ⟨t, ht⟩ := lcp2_pre_left as bs
      exact ⟨t, by simp only [lcp2, if_pos h, List.cons_append]; rw [← ht]⟩
    · exact ⟨a :: as, by simp [lcp2, h]⟩

theorem lcp2_pre_right : ∀ a b : Str, ∃ t, b = lcp2 a b ++ t
  | [], b => ⟨b, rfl⟩
  | _ :: _, [] => ⟨[], rfl⟩
  | a :: as, b :: bs => by
    by_cases h : a = b
    · obtain ⟨t, ht⟩ := lcp2_pre_right as bs
      exact ⟨t, by simp only [lcp2, if_pos h, List.cons_append]; rw [← ht, h]⟩
    · exact ⟨b :: bs, by simp [lcp2, h]⟩

theorem lcp2_pre_mono : ∀ (p a b : Str),
    (∃ t, a = p ++ t) → (∃ t, b = p ++ t) → ∃ t, lcp2 a b = p ++ t
  | [], a, b, _, _ => ⟨lcp2 a b, rfl⟩
  | p :: ps, a, b, ha, hb => by
    obtain ⟨t, rfl⟩ := ha
    obtain ⟨u, rfl⟩ := hb
    obtain ⟨v, hv⟩ := lcp2_pre_mono ps (ps ++ t) (ps ++ u) ⟨t, rfl⟩ ⟨u, rfl⟩
    exact ⟨v, by simp [lcp2, hv]⟩

theorem foldl_lcp2_pre_acc : ∀ (l : List Str) (acc : Str),
    ∃ t, acc = (l.foldl lcp2 acc) ++ t
  | [], acc => ⟨[], by simp⟩
  | s :: ss, acc => by
    obtain ⟨t, ht⟩ := foldl_lcp2_pre_acc ss (lcp2 acc s)
    obtain ⟨u, hu⟩ := lcp2_pre_left acc s
    refine ⟨t ++ u, ?_⟩
    rw [List.foldl_cons]
    calc acc = lcp2 acc s ++ u := hu
    _ = (List.foldl lcp2 (lcp2 acc s) ss ++ t) ++ u := by conv_lhs => rw [ht]
    _ = List.foldl lcp2 (lcp2 acc s) ss ++ (t ++ u) := List.append_assoc _ _ _

theorem foldl_lcp2_pre_mem : ∀ (l : List Str) (acc s : Str), s ∈ l →
    ∃ t, s = (l.foldl lcp2 acc) ++ t
  | s0 :: ss, acc, s, hmem => by
    rw [List.foldl_cons]
    rcases List.mem_cons.mp hmem with rfl | h
    · obtain ⟨t, ht⟩ := foldl_lcp2_pre_acc ss (lcp2 acc s)
      obtain ⟨u, hu⟩ := lcp2_pre_right acc s
      refine ⟨t ++ u, ?_⟩
      calc s = lcp2 acc s ++ u := hu
      _ = (List.foldl lcp2 (lcp2 acc s) ss ++ t) ++ u := by conv_lhs => rw [ht]
      _ = List.foldl lcp2 (lcp2 acc s) ss ++ (t ++ u) := List.append_assoc _ _ _
    · exact foldl_lcp2_pre_mem ss _ s h

theorem foldl_lcp2_mono : ∀ (l : List Str) (acc p : Str),
    (∃ t, acc = p ++ t) → (∀ s ∈ l, ∃ t, s = p ++ t) →
    ∃ t, l.foldl lcp2 acc = p ++ t
  | [], acc, p, hacc, _ => by simpa using hacc
  | s :: ss, acc, p, hacc, hall => by
    rw [List.foldl_cons]
    exact foldl_lcp2_mono ss _ p
      (lcp2_pre_mono p acc s hacc (hall s (by simp)))
      (fun x hx => hall x (by simp [hx]))

theorem commonStem_pre {l : List Str} {s : Str} (h : s ∈ l) :
    ∃ t, s = commonStem l ++ t := by
  cases l with
  | nil => cases h
  | cons a ss =>
    rcases List.mem_cons.mp h with rfl | h2
    · exact foldl_lcp2_pre_acc ss s
    · exact foldl_lcp2_pre_mem ss a s h2

theorem commonStem_greatest {l : List Str} {p : Str} (hne : l ≠ [])
    (h : ∀ s ∈ l, ∃ t, s = p ++ t) : ∃ t, commonStem l = p ++ t := by
  cases l with
  | nil => exact absurd rfl hne
  | cons a ss =>
    exact foldl_lcp2_mono ss a p (h a (by simp)) (fun s hs => h s (by simp [hs]))

theorem commonStem_perm {l l2 : List Str} (h : l.Perm l2) :
    commonStem l = commonStem l2 := by
  by_cases hn : l = []
  · subst hn
    rw [List.Perm.eq_nil h.symm]
  · have hn2 : l2 ≠ [] := by
      intro hc
      subst hc
      exact hn (List.Perm.eq_nil h)
    refine pre_antisymm ?_ ?_
    · exact commonStem_greatest hn (fun s hs => commonStem_pre (h.mem_iff.mp hs))
    · exact commonStem_greatest hn2 (fun s hs => commonStem_pre (h.mem_iff.mpr hs))

theorem sfx_append (stem t : Str) : sfx stem (stem ++ t) = t := by
  simp [sfx, List.drop_left]

theorem eq_stem_append_sfx {stem s : Str} (h : ∃ t, s = stem ++ t) :
    s = stem ++ sfx stem s := by
  obtain ⟨t, rfl⟩ := h
  rw [sfx_append]

theorem digit_not_space {c : Char} (h : c.isDigit = true) : isPySpace c = false := by
  by_contra hc
  have h2 : isPySpace c = true := by revert hc; cases isPySpace c <;> simp
  simp only [isPySpace, Bool.or_eq_true, decide_eq_true_eq] at h2
  rcases h2 with ((((rfl | rfl) | rfl) | rfl) | rfl) | rfl <;> exact absurd h (by decide)

theorem digit_not_sign {c : Char} (h : c.isDigit = true) :
    (decide (c = '+') || decide (c = '-')) = false := by
  by_contra hc
  have h2 : (decide (c = '+') || decide (c = '-')) = true := by
    revert hc; cases (decide (c = '+') || decide (c = '-')) <;> simp
  simp only [Bool.or_eq_true, decide_eq_true_eq] at h2
  rcases h2 with rfl | rfl <;> exact absurd h (by decide)

theorem dropWhile_eq_self {p : Char → Bool} :
    ∀ {s : Str}, (∀ c ∈ s, p c = false) → s.dropWhile p = s
  | [], _ => rfl
  | c :: cs, h => by
    have := h c (by simp)
    simp [List.dropWhile_cons, this]

theorem digitsUndRest_all : ∀ {s : Str}, (∀ c ∈ s, c.isDigit = true) →
    digitsUndRest s = true
  | [], _ => rfl
  | c :: cs, h => by
    have hc := h c (by simp)
    rw [digitsUndRest.eq_def]
    simp only [hc, if_true]
    exact digitsUndRest_all (fun x hx => h x (by simp [hx]))

theorem pyIntParses_all_digits {s : Str} (hne : s ≠ [])
    (hall : ∀ c ∈ s, c.isDigit = true) : pyIntParses s = true := by
  have h1 : s.dropWhile isPySpace = s :=
    dropWhile_eq_self (fun c hc => digit_not_space (hall c hc))
  have h2 : s.reverse.dropWhile isPySpace = s.reverse :=
    dropWhile_eq_self (fun c hc => digit_not_space (hall c (List.mem_reverse.mp hc)))
  have hst : pyStripped s = s := by
    rw [pyStripped, h1, h2, List.reverse_reverse]
  obtain ⟨c, cs, rfl⟩ : ∃ c cs, s = c :: cs := by
    cases s with
    | nil => exact absurd rfl hne
    | cons c cs => exact ⟨c, cs, rfl⟩
  have hc := hall c (by simp)
  have hsl : pySignless (c :: cs) = c :: cs := by
    simp only [pySignless, hst]
    rw [digit_not_sign hc]
    simp [hst]
  rw [pyIntParses, hsl, digitsUnd]
  simp only [hc, Bool.true_and]
  exact digitsUndRest_all (fun x hx => hall x (by simp [hx]))

theorem bad_nondigit {stem a : Str} (h : badSuffix stem a = true) :
    sfx stem a ≠ [] ∧ ∃ c ∈ sfx stem a, c.isDigit = false := by
  simp only [badSuffix, Bool.and_eq_true, Bool.not_eq_true'] at h
  have hne : sfx stem a ≠ [] := by
    intro hc
    rw [hc] at h
    simp at h
  refine ⟨hne, ?_⟩
  by_contra hc
  push_neg at hc
  have hall : ∀ c ∈ sfx stem a, c.isDigit = true := by
    intro c hcm
    have := hc c hcm
    revert this
    cases c.isDigit <;> simp
  rw [pyIntParses_all_digits hne hall] at h
  simp at h

/- Error behaviour of the construction loop. -/

theorem processAgent_ok {stem : Str} (st : BuildState) {a : Str}
    (h : badSuffix stem a = false) : ∃ st2, processAgent stem st a = .ok st2 := by
  rw [processAgent]
  rw [h]
  simp only [Bool.false_eq_true, if_false]
  cases hm : mapFind st.idNodeMap ((sfx stem a).dropLast) <;> exact ⟨_, rfl⟩

theorem processAgent_error {stem : Str} {st : BuildState} {a : Str} {e}
    (h : processAgent stem st a = .error e) :
    badSuffix stem a = true ∧ e = ⟨a, stem⟩ := by
  rw [processAgent] at h
  cases hb : badSuffix stem a with
  | true =>
    rw [hb] at h
    simp only [if_true] at h
    exact ⟨rfl, (Except.error.inj h).symm⟩
  | false =>
    rw [hb] at h
    simp only [Bool.false_eq_true, if_false] at h
    cases hm : mapFind st.idNodeMap ((sfx stem a).dropLast) <;> rw [hm] at h <;> cases h

theorem runAgents_ok_of_good : ∀ {l : List Str} {stem : Str} (st : BuildState),
    (∀ a ∈ l, badSuffix stem a = false) → ∃ st2, runAgents stem st l = .ok st2
  | [], _, st, _ => ⟨st, rfl⟩
  | a :: rest, stem, st, h => by
    obtain ⟨st2, h2⟩ := processAgent_ok st (h a (by simp))
    obtain ⟨st3, h3⟩ :=
      @runAgents_ok_of_good rest stem st2 (fun x hx => h x (by simp [hx]))
    exact ⟨st3, by simp only [runAgents, h2, h3]⟩

theorem runAgents_error_spec : ∀ {l : List Str} {stem : Str} {st : BuildState} {e},
    runAgents stem st l = .error e →
    e.agent_id ∈ l ∧ e.stem = stem ∧ badSuffix stem e.agent_id = true
  | [], _, _, _, h => by cases h
  | a :: rest, stem, st, e, h => by
    rw [runAgents] at h
    cases hp : processAgent stem st a with
    | error e0 =>
      rw [hp] at h
      obtain rfl : e0 = e := Except.error.inj h
      obtain ⟨hbad, rfl⟩ := processAgent_error hp
      exact ⟨by simp, rfl, hbad⟩
    | ok st2 =>
      rw [hp] at h
      obtain ⟨hmem, hstem, hbad⟩ := runAgents_error_spec h
      exact ⟨by simp [hmem], hstem, hbad⟩

theorem runAgents_error_of_bad : ∀ {l : List Str} {stem : Str} (st : BuildState)
    {a : Str}, a ∈ l → badSuffix stem a = true →
    ∃ e, runAgents stem st l = .error e
  | a0 :: rest, stem, st, a, hmem, hbad => by
    cases h0 : badSuffix stem a0 with
    | true =>
      refine ⟨⟨a0, stem⟩, ?_⟩
      rw [runAgents, processAgent, h0]
      simp
    | false =>
      obtain ⟨st2, hst2⟩ := processAgent_ok st h0
      have hmem2 : a ∈ rest := by
        rcases List.mem_cons.mp hmem with rfl | hm
        · rw [h0] at hbad; cases hbad
        · exact hm
      obtain ⟨e, he⟩ := runAgents_error_of_bad st2 hmem2 hbad
      exact ⟨e, by simp only [runAgents, hst2, he]⟩

theorem sortedIds_perm (ids : List Str) : (sortedIds ids).Perm ids :=
  List.perm_insertionSort _ _

theorem sortedIds_sorted (ids : List Str) : (sortedIds ids).Sorted strLeP :=
  @List.sorted_insertionSort _ strLeP _
    ⟨fun a b => strLe_total a b⟩ ⟨fun _ _ _ => strLe_trans⟩ ids

theorem sortedIds_eq_of_perm {l1 l2 : List Str} (h : l1.Perm l2) :
    sortedIds l1 = sortedIds l2 :=
  @List.eq_of_perm_of_sorted _ strLeP ⟨fun _ _ => strLe_antisymm⟩ _ _
    (((sortedIds_perm l1).trans h).trans (sortedIds_perm l2).symm)
    (sortedIds_sorted l1) (sortedIds_sorted l2)

theorem make_error_spec {ids : List Str} {e} (h : make_ete_trees ids = .error e) :
    e.agent_id ∈ ids ∧ e.stem = commonStem ids ∧
      badSuffix (commonStem ids) e.agent_id = true := by
  obtain ⟨hmem, hstem, hbad⟩ := runAgents_error_spec h
  exact ⟨(sortedIds_perm ids).mem_iff.mp hmem, hstem, hbad⟩

theorem make_error_of_bad {ids : List Str} {a : Str} (hmem : a ∈ ids)
    (hbad : badSuffix (commonStem ids) a = true) :
    ∃ e, make_ete_trees ids = .error e :=
  runAgents_error_of_bad _ ((sortedIds_perm ids).mem_iff.mpr hmem) hbad

theorem make_ok_of_good {ids : List Str}
    (h : ∀ a ∈ ids, badSuffix (commonStem ids) a = false) :
    ∃ st, make_ete_trees ids = .ok st :=
  runAgents_ok_of_good _ (fun a ha => h a ((sortedIds_perm ids).mem_iff.mp ha))

/- Preorder traversal machinery. -/

theorem flatMap_congr {α β : Type} {l : List α} {f g : α → List β}
    (h : ∀ a ∈ l, f a = g a) : l.flatMap f = l.flatMap g := by
  induction l with
  | nil => rfl
  | cons a l ih =>
    simp only [List.flatMap_cons]
    rw [h a (by simp), ih (fun x hx => h x (by simp [hx]))]

theorem perm_flatMap_congr {α β : Type} {l : List α} {f g : α → List β}
    (h : ∀ a ∈ l, (f a).Perm (g a)) : (l.flatMap f).Perm (l.flatMap g) := by
  induction l with
  | nil => exact .refl _
  | cons a l ih =>
    simp only [List.flatMap_cons]
    exact (h a (by simp)).append (ih (fun x hx => h x (by simp [hx])))

theorem flatMap_split {α β : Type} (l : List α) (f g : α → List β) :
    (l.flatMap (fun a => f a ++ g a)).Perm (l.flatMap f ++ l.flatMap g) := by
  induction l with
  | nil => exact .refl _
  | cons a l ih =>
    simp only [List.flatMap_cons]
    refine ((List.Perm.refl (f a ++ g a)).append ih).trans ?_
    have h1 : (f a ++ g a) ++ (l.flatMap f ++ l.flatMap g) =
        f a ++ (g a ++ l.flatMap f ++ l.flatMap g) := by simp [List.append_assoc]
    have h2 : (f a ++ l.flatMap f) ++ (g a ++ l.flatMap g) =
        f a ++ (l.flatMap f ++ g a ++ l.flatMap g) := by simp [List.append_assoc]
    rw [h1, h2]
    exact (List.Perm.refl (f a)).append
      (List.perm_append_comm.append (List.Perm.refl _))

theorem flatMap_replicate {α β : Type} (l : List α) (k : α → Nat) (x : β) :
    l.flatMap (fun a => List.replicate (k a) x) =
      List.replicate ((l.map k).sum) x := by
  induction l with
  | nil => rfl
  | cons a l ih =>
    simp only [List.flatMap_cons, List.map_cons, List.sum_cons, ih,
      List.replicate_add]

theorem preorder_ge {arena : List TreeNode} (hok : okArena arena) :
    ∀ (fuel i j : Nat), j ∈ preorderIdx arena fuel i → i ≤ j
  | 0, _, _, h => by cases h
  | fuel + 1, i, j, h => by
    cases hi : arena[i]? with
    | none => rw [preorderIdx, hi] at h; cases h
    | some n =>
      rw [preorderIdx, hi] at h
      rcases List.mem_cons.mp h with rfl | h2
      · exact Nat.le_refl _
      · obtain ⟨c, hc, hj⟩ := List.mem_flatMap.mp h2
        have hedge := hok i c ⟨n, hi, hc⟩
        have := preorder_ge hok fuel c j hj
        omega

theorem preorder_count_zero {arena : List TreeNode} (hok : okArena arena)
    {p : Nat} {fuel c : Nat} (hpc : p < c) :
    List.count p (preorderIdx arena fuel c) = 0 := by
  rw [List.count_eq_zero]
  intro hmem
  have := preorder_ge hok fuel c p hmem
  omega

theorem preorder_fuel_eq {arena : List TreeNode} (hok : okArena arena) :
    ∀ (d i f1 f2 : Nat), i < arena.length → arena.length - i ≤ d →
      arena.length - i ≤ f1 → arena.length - i ≤ f2 →
      preorderIdx arena f1 i = preorderIdx arena f2 i
  | 0, i, _, _, hi, hd, _, _ => by omega
  | d + 1, i, f1, f2, hi, hd, h1, h2 => by
    obtain ⟨f1p, rfl⟩ : ∃ k, f1 = k + 1 := ⟨f1 - 1, by omega⟩
    obtain ⟨f2p, rfl⟩ : ∃ k, f2 = k + 1 := ⟨f2 - 1, by omega⟩
    cases hi2 : arena[i]? with
    | none => simp [preorderIdx, hi2]
    | some n =>
      simp only [preorderIdx, hi2]
      congr 1
      apply flatMap_congr
      intro c hc
      have hedge := hok i c ⟨n, hi2, hc⟩
      exact preorder_fuel_eq hok d c f1p f2p hedge.2 (by omega) (by omega) (by omega)

theorem preorder_append {arena : List TreeNode} {x : TreeNode} (hok : okArena arena) :
    ∀ (fuel i : Nat), i < arena.length →
      preorderIdx (arena ++ [x]) fuel i = preorderIdx arena fuel i
  | 0, _, _ => rfl
  | fuel + 1, i, hi => by
    have hgl : (arena ++ [x])[i]? = arena[i]? := List.getElem?_append_left hi
    cases hi2 : arena[i]? with
    | none => simp [preorderIdx, hgl, hi2]
    | some n =>
      simp only [preorderIdx, hgl, hi2]
      congr 1
      apply flatMap_congr
      intro c hc
      exact preorder_append hok fuel c (hok i c ⟨n, hi2, hc⟩).2

theorem preorder_leaf {arena : List TreeNode} {i : Nat} {nm : Str}
    (h : arena[i]? = some ⟨nm, []⟩) (fuel : Nat) :
    preorderIdx arena (fuel + 1) i = [i] := by
  simp [preorderIdx, h]

theorem getElem?_some_lt {α : Type} {l : List α} {i : Nat} {x : α}
    (h : l[i]? = some x) : i < l.length := by
  by_contra hc
  rw [List.getElem?_eq_none (by omega)] at h
  cases h

theorem set_append_get_lt {arena : List TreeNode} {p : Nat} (nn x : TreeNode)
    {j : Nat} (hj : j < arena.length) :
    (arena.set p nn ++ [x])[j]? = if j = p then some nn else arena[j]? := by
  rw [List.getElem?_append_left (by rw [List.length_set]; exact hj)]
  by_cases h : j = p
  · subst h
    rw [if_pos rfl]
    exact List.getElem?_set_self hj
  · rw [if_neg h]
    exact List.getElem?_set_ne (Ne.symm h)

theorem set_append_get_last {arena : List TreeNode} {p : Nat} (nn x : TreeNode) :
    (arena.set p nn ++ [x])[arena.length]? = some x := by
  have h : (arena.set p nn).length = arena.length := List.length_set arena p nn
  rw [← h]
  exact List.getElem?_concat_length _ _

theorem count_flatMap_sum {l : List Nat} {f : Nat → List Nat} {p : Nat} :
    List.count p (l.flatMap f) = (l.map (fun c => List.count p (f c))).sum := by
  rw [List.count_flatMap]
  rfl

theorem preorder_attach {arena : List TreeNode} {p : Nat} {n : TreeNode} (nm : Str)
    (hok : okArena arena) (hp : arena[p]? = some n) :
    ∀ (f i : Nat), i < arena.length → arena.length - i < f →
      (preorderIdx (arena.set p ⟨n.name, n.children ++ [arena.length]⟩ ++ [⟨nm, []⟩]) f i).Perm
        (preorderIdx arena f i ++
          List.replicate (List.count p (preorderIdx arena f i)) arena.length)
  | 0, i, hi, hf => by omega
  | f + 1, i, hi, hf => by
    have hpL : p < arena.length := getElem?_some_lt hp
    by_cases hip : i = p
    · subst hip
      have hg : (arena.set i ⟨n.name, n.children ++ [arena.length]⟩ ++ [⟨nm, []⟩])[i]? =
          some ⟨n.name, n.children ++ [arena.length]⟩ := by
        rw [set_append_get_lt _ _ hi, if_pos rfl]
      simp only [preorderIdx, hg, hp]
      rw [List.flatMap_append]
      have hleaf : preorderIdx
          (arena.set i ⟨n.name, n.children ++ [arena.length]⟩ ++ [⟨nm, []⟩]) f arena.length =
          [arena.length] := by
        obtain ⟨f2, rfl⟩ : ∃ k, f = k + 1 := ⟨f - 1, by omega⟩
        exact preorder_leaf (set_append_get_last _ _) f2
      have hcz : ∀ c ∈ n.children, List.count i (preorderIdx arena f c) = 0 :=
        fun c hc => preorder_count_zero hok (hok i c ⟨n, hp, hc⟩).1
      have hchild : ((n.children).flatMap
          (preorderIdx (arena.set i ⟨n.name, n.children ++ [arena.length]⟩ ++ [⟨nm, []⟩]) f)).Perm
          (n.children.flatMap (preorderIdx arena f)) := by
        apply perm_flatMap_congr
        intro c hc
        have hcl := hok i c ⟨n, hp, hc⟩
        have hrec := preorder_attach nm hok hp f c hcl.2 (by omega)
        simpa [hcz c hc] using hrec
      have hflat0 : List.count i (n.children.flatMap (preorderIdx arena f)) = 0 := by
        rw [count_flatMap_sum]
        apply List.sum_eq_zero
        intro x hx
        obtain ⟨c, hc, rfl⟩ := List.mem_map.mp hx
        exact hcz c hc
      have hcnt : List.count i (i :: n.children.flatMap (preorderIdx arena f)) = 1 := by
        rw [List.count_cons_self, hflat0]
      rw [hcnt, List.replicate_one]
      simp only [List.flatMap_cons, List.flatMap_nil, List.append_nil, List.cons_append]
      rw [hleaf]
      exact (hchild.append (List.Perm.refl [arena.length])).cons _
    · have hg : (arena.set p ⟨n.name, n.children ++ [arena.length]⟩ ++ [⟨nm, []⟩])[i]? =
          arena[i]? := by
        rw [set_append_get_lt _ _ hi, if_neg hip]
      cases hi2 : arena[i]? with
      | none => simp [preorderIdx, hg, hi2]
      | some m =>
        simp only [preorderIdx, hg, hi2]
        have hstep : ((m.children).flatMap
            (preorderIdx (arena.set p ⟨n.name, n.children ++ [arena.length]⟩ ++ [⟨nm, []⟩]) f)).Perm
            (m.children.flatMap (fun c => preorderIdx arena f c ++
              List.replicate (List.count p (preorderIdx arena f c)) arena.length)) := by
          apply perm_flatMap_congr
          intro c hc
          have hcl := hok i c ⟨m, hi2, hc⟩
          exact preorder_attach nm hok hp f c hcl.2 (by omega)
        have hsplit := flatMap_split m.children (fun c => preorderIdx arena f c)
          (fun c => List.replicate (List.count p (preorderIdx arena f c)) arena.length)
        have hrep := flatMap_replicate m.children
          (fun c => List.count p (preorderIdx arena f c)) arena.length
        have hcnt : List.count p (i :: m.children.flatMap (preorderIdx arena f)) =
            (m.children.map (fun c => List.count p (preorderIdx arena f c))).sum := by
          rw [List.count_cons_of_ne (Ne.symm hip), count_flatMap_sum]
        rw [List.cons_append, hcnt, ← hrep]
        exact ((hstep.trans hsplit).trans
          ((List.Perm.refl _).append (List.Perm.refl _))).cons _

/- Bridging facts between the two arena mutations and node names. -/

theorem nameAt_of_get {arena : List TreeNode} {j : Nat} {n : TreeNode}
    (h : arena[j]? = some n) : nameAt arena j = n.name := by
  simp [nameAt, h]

theorem nameAt_set_append {arena : List TreeNode} {p : Nat} {n : TreeNode}
    (hp : arena[p]? = some n) (ch : List Nat) (x : TreeNode) {j : Nat}
    (hj : j < arena.length) :
    nameAt (arena.set p ⟨n.name, ch⟩ ++ [x]) j = nameAt arena j := by
  rw [nameAt, set_append_get_lt _ _ hj]
  by_cases h : j = p
  · subst h
    rw [if_pos rfl]
    simp [nameAt_of_get hp]
  · rw [if_neg h]
    rfl

theorem nameAt_set_append_last {arena : List TreeNode} {p : Nat}
    (nn x : TreeNode) :
    nameAt (arena.set p nn ++ [x]) arena.length = x.name := by
  rw [nameAt, set_append_get_last]
  rfl

theorem nameAt_append {arena : List TreeNode} {x : TreeNode} {j : Nat}
    (hj : j < arena.length) : nameAt (arena ++ [x]) j = nameAt arena j := by
  rw [nameAt, List.getElem?_append_left hj]
  rfl

theorem nameAt_append_last {arena : List TreeNode} (x : TreeNode) :
    nameAt (arena ++ [x]) arena.length = x.name := by
  rw [nameAt, List.getElem?_concat_length]
  rfl

theorem map_name_set {arena : List TreeNode} {p : Nat} {n : TreeNode}
    (hp : arena[p]? = some n) (ch : List Nat) :
    (arena.set p ⟨n.name, ch⟩).map TreeNode.name = arena.map TreeNode.name := by
  apply List.ext_getElem?
  intro j
  rw [List.getElem?_map, List.getElem?_map]
  by_cases hj : j = p
  · subst hj
    rw [List.getElem?_set_self (getElem?_some_lt hp), hp]
    rfl
  · rw [List.getElem?_set_ne (Ne.symm hj)]

theorem set_append_length {arena : List TreeNode} {p : Nat} (nn x : TreeNode) :
    (arena.set p nn ++ [x]).length = arena.length + 1 := by
  simp [List.length_set]

theorem newRootAt_congr {stem : Str} {arena arena2 : List TreeNode} {i : Nat}
    (h : ∀ j, j ≤ i → nameAt arena2 j = nameAt arena j) :
    newRootAt stem arena2 i = newRootAt stem arena i := by
  unfold newRootAt
  rw [decide_eq_decide]
  constructor
  · intro hall j hj
    have := hall j hj
    rwa [h j (Nat.le_of_lt hj), h i (Nat.le_refl i)] at this
  · intro hall j hj
    have := hall j hj
    rwa [← h j (Nat.le_of_lt hj), ← h i (Nat.le_refl i)] at this

theorem inv_ok {stem : Str} {P : List Str} {st : BuildState}
    (inv : MasterInv stem P st) : okArena st.arena :=
  fun q c e => ⟨(inv.edges q c e).1, (inv.edges q c e).2.1⟩

theorem inv_len {stem : Str} {P : List Str} {st : BuildState}
    (inv : MasterInv stem P st) : st.arena.length = P.length := by
  rw [← inv.names, List.length_map]

theorem roots_lt {stem : Str} {P : List Str} {st : BuildState}
    (inv : MasterInv stem P st) : ∀ r ∈ st.roots, r < st.arena.length := by
  intro r hr
  rw [inv.rootsIdx] at hr
  exact List.mem_range.mp (List.mem_filter.mp hr).1

/- Preservation of the master invariant by one loop iteration. -/

theorem inv_step {stem : Str} {P : List Str} {st st2 : BuildState} {a : Str}
    (inv : MasterInv stem P st) (h : processAgent stem st a = .ok st2) :
    MasterInv stem (P ++ [a]) st2 := by
  have hok := inv_ok inv
  cases hb : badSuffix stem a with
  | true =>
    rw [processAgent, hb] at h
    simp at h
  | false =>
    rw [processAgent, hb] at h
    simp only [Bool.false_eq_true, if_false] at h
    cases hm : mapFind st.idNodeMap ((sfx stem a).dropLast) with
    | some p =>
      simp only [hm] at h
      obtain ⟨hpL, hpk, hlater⟩ := inv.mapSome _ p hm
      obtain ⟨n, hn⟩ : ∃ n, st.arena[p]? = some n :=
        ⟨_, List.getElem?_eq_getElem hpL⟩
      have hAC : addChild st.arena p st.arena.length =
          st.arena.set p ⟨n.name, n.children ++ [st.arena.length]⟩ := by
        rw [addChild, hn]
      rw [hAC] at h
      injection h with h2
      subst h2
      have hlen2 : (st.arena.set p ⟨n.name, n.children ++ [st.arena.length]⟩ ++
          [(⟨a, []⟩ : TreeNode)]).length = st.arena.length + 1 := set_append_length _ _
      have hname_lt : ∀ j, j < st.arena.length →
          nameAt (st.arena.set p ⟨n.name, n.children ++ [st.arena.length]⟩ ++
            [(⟨a, []⟩ : TreeNode)]) j = nameAt st.arena j :=
        fun j hj => nameAt_set_append hn _ _ hj
      have hname_last : nameAt (st.arena.set p ⟨n.name, n.children ++ [st.arena.length]⟩ ++
          [(⟨a, []⟩ : TreeNode)]) st.arena.length = a := nameAt_set_append_last _ _
      have hgetlast : (st.arena.set p ⟨n.name, n.children ++ [st.arena.length]⟩ ++
          [(⟨a, []⟩ : TreeNode)])[st.arena.length]? = some ⟨a, []⟩ := set_append_get_last _ _
      refine ⟨?_, ?_, ?_, ?_, ?_, ?_⟩
      · show (st.arena.set p ⟨n.name, n.children ++ [st.arena.length]⟩ ++
            [(⟨a, []⟩ : TreeNode)]).map TreeNode.name = P ++ [a]
        rw [List.map_append, map_name_set hn, inv.names]
        rfl
      · intro k2 i hfind
        simp only [mapFind] at hfind
        by_cases hk : sfx stem a = k2
        · rw [if_pos hk] at hfind
          obtain rfl : st.arena.length = i := Option.some.inj hfind
          refine ⟨by rw [hlen2]; omega, ?_, ?_⟩
          · rw [hname_last]
            exact hk
          · intro j hj1 hj2
            rw [hlen2] at hj2
            omega
        · rw [if_neg hk] at hfind
          obtain ⟨hiL, hik, hilater⟩ := inv.mapSome k2 i hfind
          refine ⟨by rw [hlen2]; omega, ?_, ?_⟩
          · rw [hname_lt i hiL]
            exact hik
          · intro j hj1 hj2
            rw [hlen2] at hj2
            by_cases hjL : j = st.arena.length
            · subst hjL
              rw [hname_last]
              exact hk
            · rw [hname_lt j (by omega)]
              exact hilater j hj1 (by omega)
      · intro k2 hfind j hj
        simp only [mapFind] at hfind
        by_cases hk : sfx stem a = k2
        · rw [if_pos hk] at hfind
          cases hfind
        · rw [if_neg hk] at hfind
          rw [hlen2] at hj
          by_cases hjL : j = st.arena.length
          · subst hjL
            rw [hname_last]
            exact hk
          · rw [hname_lt j (by omega)]
            exact inv.mapNone k2 hfind j (by omega)
      · intro q c e
        obtain ⟨nq, hq, hcmem⟩ := e
        have hqlt : q < st.arena.length + 1 := by
          have := getElem?_some_lt hq
          rwa [hlen2] at this
        by_cases hqL : q = st.arena.length
        · subst hqL
          rw [hgetlast] at hq
          obtain rfl : nq = ⟨a, []⟩ := (Option.some.inj hq).symm
          cases hcmem
        · have hqlt2 : q < st.arena.length := by omega
          rw [set_append_get_lt _ _ hqlt2] at hq
          by_cases hqp : q = p
          · subst hqp
            rw [if_pos rfl] at hq
            obtain rfl : nq = ⟨n.name, n.children ++ [st.arena.length]⟩ :=
              (Option.some.inj hq).symm
            rcases List.mem_append.mp hcmem with hc | hc
            · obtain ⟨h1, h2, h3, h4⟩ := inv.edges q c ⟨n, hn, hc⟩
              refine ⟨h1, by rw [hlen2]; omega, ?_, ?_⟩
              · rw [hname_lt c h2, hname_lt q hqlt2]
                exact h3
              · intro j hj1 hj2
                rw [hname_lt j (by omega), hname_lt q hqlt2]
                exact h4 j hj1 hj2
            · obtain rfl : c = st.arena.length := by simpa using hc
              refine ⟨hqlt2, by rw [hlen2]; omega, ?_, ?_⟩
              · rw [hname_last, hname_lt q hqlt2, hpk]
              · intro j hj1 hj2
                rw [hname_lt j (by omega), hname_lt q hqlt2, hpk]
                exact hlater j hj1 (by omega)
          · rw [if_neg hqp] at hq
            obtain ⟨h1, h2, h3, h4⟩ := inv.edges q c ⟨nq, hq, hcmem⟩
            refine ⟨h1, by rw [hlen2]; omega, ?_, ?_⟩
            · rw [hname_lt c h2, hname_lt q hqlt2]
              exact h3
            · intro j hj1 hj2
              rw [hname_lt j (by omega), hname_lt q hqlt2]
              exact h4 j hj1 hj2
      · show st.roots = _
        rw [hlen2, List.range_succ, List.filter_append]
        have hcongr : (List.range st.arena.length).filter
            (newRootAt stem (st.arena.set p ⟨n.name, n.children ++ [st.arena.length]⟩ ++
              [(⟨a, []⟩ : TreeNode)])) =
            (List.range st.arena.length).filter (newRootAt stem st.arena) := by
          apply List.filter_congr
          intro i hi
          have hiL := List.mem_range.mp hi
          exact newRootAt_congr (fun j hj => hname_lt j (by omega))
        have hLfalse : newRootAt stem
            (st.arena.set p ⟨n.name, n.children ++ [st.arena.length]⟩ ++
              [(⟨a, []⟩ : TreeNode)]) st.arena.length = false := by
          unfold newRootAt
          rw [decide_eq_false_iff_not]
          intro hall
          have := hall p hpL
          rw [hname_lt p hpL, hname_last] at this
          exact this hpk
        rw [hcongr]
        simp only [List.filter_cons, hLfalse, Bool.false_eq_true, if_false,
          List.filter_nil, List.append_nil]
        exact inv.rootsIdx
      · simp only [visitIdx]
        have hstep : ∀ r ∈ st.roots,
            (preorderIdx (st.arena.set p ⟨n.name, n.children ++ [st.arena.length]⟩ ++
              [(⟨a, []⟩ : TreeNode)]) (st.arena.length + 1) r).Perm
            (preorderIdx st.arena st.arena.length r ++
              List.replicate (List.count p (preorderIdx st.arena st.arena.length r))
                st.arena.length) := by
          intro r hr
          have hrL := roots_lt inv r hr
          have h1 := preorder_attach a hok hn (st.arena.length + 1) r hrL (by omega)
          have h2 : preorderIdx st.arena (st.arena.length + 1) r =
              preorderIdx st.arena st.arena.length r :=
            preorder_fuel_eq hok st.arena.length r (st.arena.length + 1)
              st.arena.length hrL (by omega) (by omega) (by omega)
          rwa [h2] at h1
        have hcnt : (st.roots.map
            (fun r => List.count p (preorderIdx st.arena st.arena.length r))).sum = 1 := by
          rw [← count_flatMap_sum]
          have hv : st.roots.flatMap (preorderIdx st.arena st.arena.length) = visitIdx st := rfl
          rw [hv, inv.cover.count_eq p,
            List.count_eq_one_of_mem (List.nodup_range _) (List.mem_range.mpr hpL)]
        have hs3 := flatMap_replicate st.roots
          (fun r => List.count p (preorderIdx st.arena st.arena.length r)) st.arena.length
        have hfinal : (st.roots.flatMap
            (preorderIdx (st.arena.set p ⟨n.name, n.children ++ [st.arena.length]⟩ ++
              [(⟨a, []⟩ : TreeNode)]) (st.arena.length + 1))).Perm
            (visitIdx st ++ [st.arena.length]) := by
          refine ((perm_flatMap_congr hstep).trans
            ((flatMap_split st.roots _ _).trans ?_))
          rw [hs3, hcnt, List.replicate_one]
          exact List.Perm.refl _
        rw [hlen2]
        refine hfinal.trans ?_
        rw [List.range_succ]
        exact inv.cover.append (List.Perm.refl _)
    | none =>
      simp only [hm] at h
      injection h with h2
      subst h2
      have hlen2 : (st.arena ++ [(⟨a, []⟩ : TreeNode)]).length = st.arena.length + 1 := by
        simp
      have hname_lt : ∀ j, j < st.arena.length →
          nameAt (st.arena ++ [(⟨a, []⟩ : TreeNode)]) j = nameAt st.arena j :=
        fun j hj => nameAt_append hj
      have hname_last : nameAt (st.arena ++ [(⟨a, []⟩ : TreeNode)]) st.arena.length = a :=
        nameAt_append_last _
      have hgetlast : (st.arena ++ [(⟨a, []⟩ : TreeNode)])[st.arena.length]? =
          some ⟨a, []⟩ := List.getElem?_concat_length _ _
      refine ⟨?_, ?_, ?_, ?_, ?_, ?_⟩
      · show (st.arena ++ [(⟨a, []⟩ : TreeNode)]).map TreeNode.name = P ++ [a]
        rw [List.map_append, inv.names]
        rfl
      · intro k2 i hfind
        simp only [mapFind] at hfind
        by_cases hk : sfx stem a = k2
        · rw [if_pos hk] at hfind
          obtain rfl : st.arena.length = i := Option.some.inj hfind
          refine ⟨by rw [hlen2]; omega, ?_, ?_⟩
          · rw [hname_last]
            exact hk
          · intro j hj1 hj2
            rw [hlen2] at hj2
            omega
        · rw [if_neg hk] at hfind
          obtain ⟨hiL, hik, hilater⟩ := inv.mapSome k2 i hfind
          refine ⟨by rw [hlen2]; omega, ?_, ?_⟩
          · rw [hname_lt i hiL]
            exact hik
          · intro j hj1 hj2
            rw [hlen2] at hj2
            by_cases hjL : j = st.arena.length
            · subst hjL
              rw [hname_last]
              exact hk
            · rw [hname_lt j (by omega)]
              exact hilater j hj1 (by omega)
      · intro k2 hfind j hj
        simp only [mapFind] at hfind
        by_cases hk : sfx stem a = k2
        · rw [if_pos hk] at hfind
          cases hfind
        · rw [if_neg hk] at hfind
          rw [hlen2] at hj
          by_cases hjL : j = st.arena.length
          · subst hjL
            rw [hname_last]
            exact hk
          · rw [hname_lt j (by omega)]
            exact inv.mapNone k2 hfind j (by omega)
      · intro q c e
        obtain ⟨nq, hq, hcmem⟩ := e
        have hqlt : q < st.arena.length + 1 := by
          have := getElem?_some_lt hq
          rwa [hlen2] at this
        by_cases hqL : q = st.arena.length
        · subst hqL
          rw [hgetlast] at hq
          obtain rfl : nq = ⟨a, []⟩ := (Option.some.inj hq).symm
          cases hcmem
        · have hqlt2 : q < st.arena.length := by omega
          rw [List.getElem?_append_left hqlt2] at hq
          obtain ⟨h1, h2, h3, h4⟩ := inv.edges q c ⟨nq, hq, hcmem⟩
          refine ⟨h1, by rw [hlen2]; omega, ?_, ?_⟩
          · rw [hname_lt c h2, hname_lt q hqlt2]
            exact h3
          · intro j hj1 hj2
            rw [hname_lt j (by omega), hname_lt q hqlt2]
            exact h4 j hj1 hj2
      · show st.roots ++ [st.arena.length] = _
        rw [hlen2, List.range_succ, List.filter_append]
        have hcongr : (List.range st.arena.length).filter
            (newRootAt stem (st.arena ++ [(⟨a, []⟩ : TreeNode)])) =
            (List.range st.arena.length).filter (newRootAt stem st.arena) := by
          apply List.filter_congr
          intro i hi
          have hiL := List.mem_range.mp hi
          exact newRootAt_congr (fun j hj => hname_lt j (by omega))
        have hLtrue : newRootAt stem (st.arena ++ [(⟨a, []⟩ : TreeNode)])
            st.arena.length = true := by
          unfold newRootAt
          rw [decide_eq_true_eq]
          intro j hj
          rw [hname_lt j hj, hname_last]
          exact inv.mapNone _ hm j hj
        rw [hcongr]
        simp only [List.filter_cons, hLtrue, if_true, List.filter_nil]
        rw [inv.rootsIdx]
      · simp only [visitIdx]
        rw [List.flatMap_append]
        have hstep : st.roots.flatMap
            (preorderIdx (st.arena ++ [(⟨a, []⟩ : TreeNode)])
              ((st.arena ++ [(⟨a, []⟩ : TreeNode)]).length)) = visitIdx st := by
          apply flatMap_congr
          intro r hr
          have hrL := roots_lt inv r hr
          rw [hlen2, preorder_append hok (st.arena.length + 1) r hrL]
          exact preorder_fuel_eq hok st.arena.length r (st.arena.length + 1)
            st.arena.length hrL (by omega) (by omega) (by omega)
        have hleaf : [st.arena.length].flatMap
            (preorderIdx (st.arena ++ [(⟨a, []⟩ : TreeNode)])
              ((st.arena ++ [(⟨a, []⟩ : TreeNode)]).length)) = [st.arena.length] := by
          rw [hlen2]
          simp only [List.flatMap_cons, List.flatMap_nil, List.append_nil]
          exact preorder_leaf hgetlast st.arena.length
        rw [hstep, hleaf, hlen2, List.range_succ]
        exact inv.cover.append (List.Perm.refl _)

theorem inv_init (stem : Str) : MasterInv stem [] ⟨[], [], []⟩ := by
  refine ⟨rfl, ?_, ?_, ?_, rfl, ?_⟩
  · intro k i hfind
    cases hfind
  · intro k _ j hj
    simp at hj
  · intro q c e
    obtain ⟨nq, hq, _⟩ := e
    cases hq
  · exact List.Perm.refl _

theorem inv_run : ∀ {l : List Str} {P : List Str} {st st2 : BuildState} {stem : Str},
    MasterInv stem P st → runAgents stem st l = .ok st2 → MasterInv stem (P ++ l) st2
  | [], P, st, st2, stem, inv, h => by
    obtain rfl : st = st2 := Except.ok.inj h
    simpa using inv
  | a :: rest, P, st, st2, stem, inv, h => by
    rw [runAgents] at h
    cases hp : processAgent stem st a with
    | error e =>
      rw [hp] at h
      cases h
    | ok stm =>
      rw [hp] at h
      have := inv_run (inv_step inv hp) h
      rwa [← List.append_cons] at this

theorem make_inv {ids : List Str} {st : BuildState}
    (h : make_ete_trees ids = .ok st) :
    MasterInv (commonStem ids) (sortedIds ids) st := by
  have := inv_run (inv_init (commonStem ids)) h
  simpa using this

/- Derived facts about the finished build state. -/

theorem map_getD_range {α : Type} : ∀ (l : List α) (d : α),
    (List.range l.length).map (fun i => l.getD i d) = l
  | [], _ => rfl
  | x :: l, d => by
    rw [List.length_cons, List.range_succ_eq_map]
    simp only [List.map_cons, List.getD_cons_zero, List.map_map]
    congr 1
    have h : ((fun i => (x :: l).getD i d) ∘ Nat.succ) = (fun i => l.getD i d) := by
      funext i
      simp [List.getD_cons_succ]
    rw [h, map_getD_range l d]

theorem nameAt_eq_getD (arena : List TreeNode) (i : Nat) :
    nameAt arena i = (arena.map TreeNode.name).getD i [] := by
  rw [nameAt, List.getD_eq_getElem?_getD, List.getElem?_map]

theorem forestNames_perm {stem : Str} {P : List Str} {st : BuildState}
    (inv : MasterInv stem P st) : (forestNames st).Perm P := by
  have h2 := inv.cover.map (nameAt st.arena)
  have h3 : (List.range st.arena.length).map (nameAt st.arena) = P := by
    have h4 : (List.range st.arena.length).map (nameAt st.arena) =
        (List.range (st.arena.map TreeNode.name).length).map
          (fun i => (st.arena.map TreeNode.name).getD i []) := by
      rw [List.length_map]
      apply List.map_congr_left
      intro i _
      exact nameAt_eq_getD _ _
    rw [h4, map_getD_range, inv.names]
  rw [h3] at h2
  exact h2

theorem visitIdx_length {stem : Str} {P : List Str} {st : BuildState}
    (inv : MasterInv stem P st) : (visitIdx st).length = P.length := by
  rw [inv.cover.length_eq, List.length_range, inv_len inv]

theorem range_filter_map_getD {α : Type} : ∀ (l : List α) (q : α → Bool) (d : α),
    ((List.range l.length).filter (fun i => q (l.getD i d))).map (fun i => l.getD i d) =
      l.filter q
  | [], _, _ => rfl
  | x :: l, q, d => by
    rw [List.length_cons, List.range_succ_eq_map, List.filter_cons]
    have hrest : ((List.map Nat.succ (List.range l.length)).filter
        (fun i => q ((x :: l).getD i d))).map (fun i => (x :: l).getD i d) =
        l.filter q := by
      rw [List.filter_map, List.map_map]
      have h1 : ((fun i => q ((x :: l).getD i d)) ∘ Nat.succ) =
          (fun i => q (l.getD i d)) := by
        funext i
        simp [List.getD_cons_succ]
      have h2 : ((fun i => (x :: l).getD i d) ∘ Nat.succ) = (fun i => l.getD i d) := by
        funext i
        simp [List.getD_cons_succ]
      rw [h1, h2, range_filter_map_getD l q d]
    simp only [List.getD_cons_zero]
    by_cases hq : q x = true
    · rw [if_pos hq, List.map_cons, List.filter_cons, if_pos hq]
      simp only [List.getD_cons_zero]
      rw [hrest]
    · rw [if_neg hq, List.filter_cons, if_neg hq]
      rw [hrest]

theorem newRootAt_eq_P {stem : Str} {P : List Str} {st : BuildState}
    (inv : MasterInv stem P st) (i : Nat) :
    newRootAt stem st.arena i =
      decide (∀ j, j < i →
        sfx stem (P.getD j []) ≠ (sfx stem (P.getD i [])).dropLast) := by
  unfold newRootAt
  have hname : ∀ j, nameAt st.arena j = P.getD j [] := fun j => by
    rw [nameAt_eq_getD, inv.names]
  simp only [hname]

theorem cond_iff_elem {stem : Str} {P : List Str} (hsort : P.Sorted strLeP)
    (hndP : P.Nodup) (hstemP : ∀ b ∈ P, ∃ t, b = stem ++ t) {i : Nat}
    (hi : i < P.length) :
    (∀ j, j < i → sfx stem (P.getD j []) ≠ (sfx stem (P.getD i [])).dropLast) ↔
      ¬∃ b ∈ P, b ≠ P.getD i [] ∧
        sfx stem b = (sfx stem (P.getD i [])).dropLast := by
  have hx : P.getD i [] = P[i] := List.getD_eq_getElem P [] hi
  have hxmem : P.getD i [] ∈ P := by
    rw [hx]
    exact List.getElem_mem hi
  constructor
  · intro hall hex
    obtain ⟨b, hbP, hbne, hbeq⟩ := hex
    by_cases he : sfx stem (P.getD i []) = []
    · have hb2 : b = stem := by
        have hb3 := eq_stem_append_sfx (hstemP b hbP)
        rw [hbeq, he] at hb3
        simpa using hb3
      have hx2 : P.getD i [] = stem := by
        have hx3 := eq_stem_append_sfx (hstemP _ hxmem)
        rw [he] at hx3
        simpa using hx3
      exact hbne (by rw [hb2, hx2])
    · obtain ⟨j, hjlen, hjb⟩ := List.getElem_of_mem hbP
      have hbx : strLe b (P.getD i []) = true := by
        have hxeq : P.getD i [] = b ++ [(sfx stem (P.getD i [])).getLast he] := by
          calc P.getD i [] = stem ++ sfx stem (P.getD i []) :=
              eq_stem_append_sfx (hstemP _ hxmem)
          _ = stem ++ ((sfx stem (P.getD i [])).dropLast ++
                [(sfx stem (P.getD i [])).getLast he]) := by
              rw [List.dropLast_append_getLast]
          _ = (stem ++ (sfx stem (P.getD i [])).dropLast) ++
                [(sfx stem (P.getD i [])).getLast he] :=
              (List.append_assoc _ _ _).symm
          _ = b ++ [(sfx stem (P.getD i [])).getLast he] := by
              rw [← hbeq, ← eq_stem_append_sfx (hstemP b hbP)]
        rw [hxeq]
        exact strLe_self_append b _
      have hji : j < i := by
        rcases Nat.lt_trichotomy j i with h | h | h
        · exact h
        · subst h
          exact absurd (by rw [hx]; exact hjb.symm) hbne
        · exfalso
          have hsij : strLe P[i] P[j] = true :=
            (List.pairwise_iff_getElem.mp hsort) i j hi hjlen h
          rw [hjb] at hsij
          rw [hx] at hbx
          exact hbne (by rw [hx]; exact strLe_antisymm hbx hsij)
      exact hall j hji (by rw [List.getD_eq_getElem P [] hjlen, hjb]; exact hbeq)
  · intro hnex j hj hjeq
    apply hnex
    have hjlen : j < P.length := Nat.lt_trans hj hi
    refine ⟨P.getD j [], ?_, ?_, hjeq⟩
    · rw [List.getD_eq_getElem P [] hjlen]
      exact List.getElem_mem hjlen
    · rw [List.getD_eq_getElem P [] hjlen, hx]
      exact (List.pairwise_iff_getElem.mp hndP) j i hjlen hi hj

/- Python-set model lemmas and the survival classifier. -/

theorem mem_setAdd {s : List Str} {b a : Str} :
    a ∈ setAdd s b ↔ a ∈ s ∨ a = b := by
  unfold setAdd
  by_cases hb : b ∈ s
  · rw [if_pos hb]
    constructor
    · exact Or.inl
    · rintro (h | rfl)
      · exact h
      · exact hb
  · rw [if_neg hb]
    simp

theorem mem_setUnion : ∀ {l s : List Str} {a : Str},
    a ∈ setUnion s l ↔ a ∈ s ∨ a ∈ l
  | [], s, a => by simp [setUnion]
  | x :: l, s, a => by
    unfold setUnion
    rw [List.foldl_cons]
    have ih := @mem_setUnion l (setAdd s x) a
    unfold setUnion at ih
    rw [ih, mem_setAdd]
    simp [List.mem_cons, or_assoc]

theorem nodup_setAdd {s : List Str} (h : s.Nodup) (b : Str) : (setAdd s b).Nodup := by
  unfold setAdd
  by_cases hb : b ∈ s
  · rwa [if_pos hb]
  · rw [if_neg hb]
    rw [List.nodup_append]
    exact ⟨h, List.nodup_singleton b, by rwa [List.disjoint_singleton]⟩

theorem nodup_setUnion : ∀ {l s : List Str}, s.Nodup → (setUnion s l).Nodup
  | [], _, h => h
  | x :: l, s, h => by
    unfold setUnion
    rw [List.foldl_cons]
    exact @nodup_setUnion l (setAdd s x) (nodup_setAdd h x)

theorem classifyStep_in {tr : ℚ × ℚ} {et : ℚ} {acc : List Str × List Str}
    {tp : Timepoint} (hw : inWindow tr et tp.time) :
    classifyStep tr et acc tp =
      (setUnion acc.1 (tp.agents.map Prod.fst),
       setUnion acc.2 ((tp.agents.filter (fun pr => pr.2.getD false)).map Prod.fst)) := by
  unfold classifyStep
  rw [if_pos hw]

theorem classifyStep_out {tr : ℚ × ℚ} {et : ℚ} {acc : List Str × List Str}
    {tp : Timepoint} (hw : ¬ inWindow tr et tp.time) :
    classifyStep tr et acc tp = acc := by
  unfold classifyStep
  rw [if_neg hw]

theorem mem_dead_map {agents : List (Str × Option Bool)} {a : Str} :
    a ∈ (agents.filter (fun pr => pr.2.getD false)).map Prod.fst ↔
      ∃ pr ∈ agents, pr.1 = a ∧ pr.2.getD false = true := by
  rw [List.mem_map]
  constructor
  · rintro ⟨pr, hpr, rfl⟩
    obtain ⟨h1, h2⟩ := List.mem_filter.mp hpr
    exact ⟨pr, h1, rfl, h2⟩
  · rintro ⟨pr, h1, rfl, h2⟩
    exact ⟨pr, List.mem_filter.mpr ⟨h1, h2⟩, rfl⟩

theorem classify_fold_mem1 : ∀ (l : List Timepoint) (tr : ℚ × ℚ) (et : ℚ)
    (acc : List Str × List Str) (a : Str),
    a ∈ (l.foldl (classifyStep tr et) acc).1 ↔
      a ∈ acc.1 ∨ ∃ tp ∈ l, inWindow tr et tp.time ∧ a ∈ tp.agents.map Prod.fst
  | [], _, _, _, _ => by simp
  | tp0 :: l, tr, et, acc, a => by
    rw [List.foldl_cons]
    rw [classify_fold_mem1 l tr et (classifyStep tr et acc tp0) a]
    by_cases hw : inWindow tr et tp0.time
    · rw [classifyStep_in hw]
      constructor
      · rintro (h | h)
        · rcases mem_setUnion.mp h with h2 | h2
          · exact Or.inl h2
          · exact Or.inr ⟨tp0, by simp, hw, h2⟩
        · obtain ⟨tp, htp, h1, h2⟩ := h
          exact Or.inr ⟨tp, by simp [htp], h1, h2⟩
      · rintro (h | ⟨tp, htp, h1, h2⟩)
        · exact Or.inl (mem_setUnion.mpr (Or.inl h))
        · rcases List.mem_cons.mp htp with rfl | htp2
          · exact Or.inl (mem_setUnion.mpr (Or.inr h2))
          · exact Or.inr ⟨tp, htp2, h1, h2⟩
    · rw [classifyStep_out hw]
      constructor
      · rintro (h | ⟨tp, htp, h1, h2⟩)
        · exact Or.inl h
        · exact Or.inr ⟨tp, by simp [htp], h1, h2⟩
      · rintro (h | ⟨tp, htp, h1, h2⟩)
        · exact Or.inl h
        · rcases List.mem_cons.mp htp with rfl | htp2
          · exact absurd h1 hw
          · exact Or.inr ⟨tp, htp2, h1, h2⟩

theorem classify_fold_mem2 : ∀ (l : List Timepoint) (tr : ℚ × ℚ) (et : ℚ)
    (acc : List Str × List Str) (a : Str),
    a ∈ (l.foldl (classifyStep tr et) acc).2 ↔
      a ∈ acc.2 ∨ ∃ tp ∈ l, inWindow tr et tp.time ∧
        ∃ pr ∈ tp.agents, pr.1 = a ∧ pr.2.getD false = true
  | [], _, _, _, _ => by simp
  | tp0 :: l, tr, et, acc, a => by
    rw [List.foldl_cons]
    rw [classify_fold_mem2 l tr et (classifyStep tr et acc tp0) a]
    by_cases hw : inWindow tr et tp0.time
    · rw [classifyStep_in hw]
      constructor
      · rintro (h | h)
        · rcases mem_setUnion.mp h with h2 | h2
          · exact Or.inl h2
          · exact Or.inr ⟨tp0, by simp, hw, mem_dead_map.mp h2⟩
        · obtain ⟨tp, htp, h1, h2⟩ := h
          exact Or.inr ⟨tp, by simp [htp], h1, h2⟩
      · rintro (h | ⟨tp, htp, h1, h2⟩)
        · exact Or.inl (mem_setUnion.mpr (Or.inl h))
        · rcases List.mem_cons.mp htp with rfl | htp2
          · exact Or.inl (mem_setUnion.mpr (Or.inr (mem_dead_map.mpr h2)))
          · exact Or.inr ⟨tp, htp2, h1, h2⟩
    · rw [classifyStep_out hw]
      constructor
      · rintro (h | ⟨tp, htp, h1, h2⟩)
        · exact Or.inl h
        · exact Or.inr ⟨tp, by simp [htp], h1, h2⟩
      · rintro (h | ⟨tp, htp, h1, h2⟩)
        · exact Or.inl h
        · rcases List.mem_cons.mp htp with rfl | htp2
          · exact absurd h1 hw
          · exact Or.inr ⟨tp, htp2, h1, h2⟩

theorem classify_fold_out : ∀ (l : List Timepoint) (tr : ℚ × ℚ) (et : ℚ)
    (acc : List Str × List Str),
    (∀ tp ∈ l, ¬ inWindow tr et tp.time) → l.foldl (classifyStep tr et) acc = acc
  | [], _, _, _, _ => rfl
  | tp0 :: l, tr, et, acc, h => by
    rw [List.foldl_cons, classifyStep_out (h tp0 (by simp))]
    exact classify_fold_out l tr et acc (fun tp htp => h tp (by simp [htp]))

theorem classify_fold_nodup : ∀ (l : List Timepoint) (tr : ℚ × ℚ) (et : ℚ)
    (acc : List Str × List Str), acc.1.Nodup → acc.2.Nodup →
    (l.foldl (classifyStep tr et) acc).1.Nodup ∧
      (l.foldl (classifyStep tr et) acc).2.Nodup
  | [], _, _, _, h1, h2 => ⟨h1, h2⟩
  | tp0 :: l, tr, et, acc, h1, h2 => by
    rw [List.foldl_cons]
    by_cases hw : inWindow tr et tp0.time
    · rw [classifyStep_in hw]
      exact classify_fold_nodup l tr et _ (nodup_setUnion h1) (nodup_setUnion h2)
    · rw [classifyStep_out hw]
      exact classify_fold_nodup l tr et _ h1 h2

/- The lineage-trace candidate chain. -/

theorem candidates_cons (s : Char) (r : Str) :
    ancestorCandidates (s :: r) = [] :: (ancestorCandidates r).map (fun t => s :: t) := by
  unfold ancestorCandidates
  rw [List.length_cons, List.range_succ_eq_map]
  rw [List.map_cons, List.map_map, List.map_map]
  congr 1

theorem candidates_filter : ∀ (stem d : Str),
    (ancestorCandidates (stem ++ d)).filter (startsWith stem) = chainFromSpec stem d
  | [], d => by
    have h1 : (ancestorCandidates ([] ++ d)).filter (startsWith []) =
        ancestorCandidates d := by
      rw [List.nil_append]
      apply List.filter_eq_self.mpr
      intro x _
      rfl
    rw [h1]
    unfold ancestorCandidates chainFromSpec
    apply List.map_congr_left
    intro i _
    rw [List.nil_append]
  | s :: stem, d => by
    rw [List.cons_append, candidates_cons, List.filter_cons]
    have h0 : startsWith (s :: stem) [] = false := rfl
    rw [h0]
    simp only [Bool.false_eq_true, if_false]
    rw [List.filter_map]
    have h1 : (startsWith (s :: stem) ∘ fun t => s :: t) = startsWith stem := by
      funext t
      simp [startsWith, Function.comp]
    rw [h1, candidates_filter stem d]
    unfold chainFromSpec
    rw [List.map_map]
    apply List.map_congr_left
    intro i _
    simp [Function.comp]

theorem traced_eq {stem d : Str} {observed : List Str}
    (hobs : ∀ o ∈ observed, startsWith stem o = true) :
    tracedAncestors observed (stem ++ d) =
      (chainFromSpec stem d).filter (fun x => decide (x ∈ observed)) := by
  unfold tracedAncestors
  have h1 : (ancestorCandidates (stem ++ d)).filter (fun x => decide (x ∈ observed)) =
      ((ancestorCandidates (stem ++ d)).filter (startsWith stem)).filter
        (fun x => decide (x ∈ observed)) := by
    rw [List.filter_filter]
    apply List.filter_congr
    intro x _
    cases hd : decide (x ∈ observed) with
    | false => simp
    | true =>
      have hx : x ∈ observed := of_decide_eq_true hd
      simp [hobs x hx]
  rw [h1, candidates_filter]

/- Order independence of the tree builder. -/

theorem make_perm_eq {l1 l2 : List Str} (hperm : l1.Perm l2) :
    make_ete_trees l1 = make_ete_trees l2 := by
  unfold make_ete_trees
  rw [commonStem_perm hperm, sortedIds_eq_of_perm hperm]

/- Helper characterizations of the failure condition. -/

theorem badSuffix_true_iff {stem a : Str} :
    badSuffix stem a = true ↔
      (sfx stem a ≠ [] ∧ pyIntParses (sfx stem a) = false) := by
  unfold badSuffix
  cases h1 : (sfx stem a).isEmpty <;> cases h2 : pyIntParses (sfx stem a) <;>
    simp_all [List.isEmpty_iff]

theorem badSuffix_false_iff {stem a : Str} :
    badSuffix stem a = false ↔
      (sfx stem a = [] ∨ pyIntParses (sfx stem a) = true) := by
  unfold badSuffix
  cases h1 : (sfx stem a).isEmpty <;> cases h2 : pyIntParses (sfx stem a) <;>
    simp_all [List.isEmpty_iff]

/- ===================== Claim theorems ===================== -/

/-- C1: for every agent-ID set on which `make_ete_trees` succeeds, every
non-root node of every returned tree satisfies the prefix invariant:
removing the last character of the child suffix (its name with the common
stem stripped) yields exactly the suffix of the parent name. -/
theorem c1_prefix_invariant (ids : List Str) (st : BuildState) (p c : Nat)
    (np : TreeNode) (h : make_ete_trees ids = .ok st)
    (hp : st.arena[p]? = some np) (hc : c ∈ np.children) :
    (sfx (commonStem ids) (nameAt st.arena c)).dropLast =
      sfx (commonStem ids) (nameAt st.arena p) := by
  have inv := make_inv h
  exact (inv.edges p c ⟨np, hp, hc⟩).2.2.1

/-- Witness for C1 at the five-agent example of the spec: node 1 (`"agent0"`) is a
child of node 0 (`"agent"`), and its suffix with the last character removed
equals the parent suffix. -/
theorem c1_prefix_invariant_witness :
    (sfx (commonStem exIds7) (nameAt stEx7.arena 1)).dropLast =
      sfx (commonStem exIds7) (nameAt stEx7.arena 0) :=
  c1_prefix_invariant exIds7 stEx7 0 1 ⟨"agent".toList, [1, 4]⟩
    (by decide) (by decide) (by decide)

/-- C2: when `make_ete_trees` succeeds, the names of the nodes of the
returned trees (all roots, each tree traversed in preorder) are a
permutation of the input ids — so the set of all node names across all
trees equals exactly the input agent-ID set, no IDs dropped, none invented;
and empty input yields an empty root list. -/
theorem c2_completeness (ids : List Str) (st : BuildState)
    (h : make_ete_trees ids = .ok st) :
    (forestNames st).Perm ids ∧ (∀ x, x ∈ forestNames st ↔ x ∈ ids) ∧
      (ids = [] → st.roots = []) := by
  have inv := make_inv h
  have hperm : (forestNames st).Perm ids :=
    (forestNames_perm inv).trans (sortedIds_perm ids)
  refine ⟨hperm, fun x => hperm.mem_iff, ?_⟩
  intro hnil
  subst hnil
  have h0 : make_ete_trees [] = Except.ok (⟨[], [], []⟩ : BuildState) := rfl
  have h2 : st = (⟨[], [], []⟩ : BuildState) := Except.ok.inj (h.symm.trans h0)
  rw [h2]

/-- Witness for C2 at the five-agent example of the spec. -/
theorem c2_completeness_witness :
    (forestNames stEx7).Perm exIds7 ∧ (∀ x, x ∈ forestNames stEx7 ↔ x ∈ exIds7) ∧
      (exIds7 = [] → stEx7.roots = []) :=
  c2_completeness exIds7 stEx7 (by decide)

/-- C3, counterexample: the claim says `make_ete_trees` fails if and only if
some remainder is non-empty and contains a non-digit character. For input
`["agent", "agent+5"]` the remainder `"+5"` is non-empty and contains the
non-digit plus sign, yet the call succeeds, because Python `int("+5")` parses:
the claimed iff is false at this input. -/
theorem c3_error_counterexample :
    (make_ete_trees exIds3c).toOption.isSome = true ∧
      sfx (commonStem exIds3c) ("agent+5".toList) ≠ [] ∧
      ∃ ch ∈ sfx (commonStem exIds3c) ("agent+5".toList), ch.isDigit = false := by
  refine ⟨by decide, by decide, '+', by decide, by decide⟩

/-- C3, amended: `make_ete_trees` fails iff the remainder of some input ID after
stripping the computed common stem is non-empty and is rejected by the Python
base-10 integer parse (which accepts digits, an optional sign, surrounding
whitespace, and underscore-separated digit groups — so a non-digit character
alone, such as the plus sign, need not cause failure; a failing remainder always
contains some non-digit). The failure aborts the entire call, and the error
names an offending ID and the computed stem. -/
theorem c3_error_amended (ids : List Str) :
    (∀ e, make_ete_trees ids = .error e →
      e.agent_id ∈ ids ∧ e.stem = commonStem ids ∧
        sfx (commonStem ids) e.agent_id ≠ [] ∧
        pyIntParses (sfx (commonStem ids) e.agent_id) = false ∧
        ∃ ch ∈ sfx (commonStem ids) e.agent_id, ch.isDigit = false) ∧
    ((∃ a ∈ ids, sfx (commonStem ids) a ≠ [] ∧
        pyIntParses (sfx (commonStem ids) a) = false) →
      ∃ e, make_ete_trees ids = .error e) ∧
    ((∀ a ∈ ids, sfx (commonStem ids) a = [] ∨
        pyIntParses (sfx (commonStem ids) a) = true) →
      ∃ st, make_ete_trees ids = .ok st) := by
  refine ⟨?_, ?_, ?_⟩
  · intro e he
    obtain ⟨hmem, hstem, hbad⟩ := make_error_spec he
    obtain ⟨hne, hparse⟩ := badSuffix_true_iff.mp hbad
    obtain ⟨_, hnd⟩ := bad_nondigit hbad
    exact ⟨hmem, hstem, hne, hparse, hnd⟩
  · rintro ⟨a, ha, h1, h2⟩
    exact make_error_of_bad ha (badSuffix_true_iff.mpr ⟨h1, h2⟩)
  · intro hall
    exact make_ok_of_good (fun a ha => badSuffix_false_iff.mpr (hall a ha))

/-- Witness for amended C3 at the malformed example of the spec
`["agent", "agentX"]`: the call fails. -/
theorem c3_error_amended_witness :
    ∃ e, make_ete_trees exIdsX = .error e :=
  (c3_error_amended exIdsX).2.1 ⟨"agentX".toList, by decide, by decide, by decide⟩

/-- C7: for the five-id input of the spec, `make_ete_trees` returns exactly one
tree whose preorder traversal of node names is
`("agent", "agent0", "agent00", "agent01", "agent1")` — children in
sorted-suffix order at each level. -/
theorem c7_single_root_case :
    (make_ete_trees exIds7).map (fun st => (st.roots.length, forestNames st)) =
      Except.ok (1, ["agent".toList, "agent0".toList, "agent00".toList,
        "agent01".toList, "agent1".toList]) := by
  decide

/-- C8: `make_ete_trees` is input-order independent — on any two
permutations of the same duplicate-free ID set it returns identical results
(same trees, same parent/child relationships, and a fortiori the same root
list, since the single lexicographic processing order is reconstructed
internally by sorting). -/
theorem c8_order_independence (l1 l2 : List Str) (hperm : l1.Perm l2)
    (_hnd : l1.Nodup) : make_ete_trees l1 = make_ete_trees l2 :=
  make_perm_eq hperm

/-- Witness for C8 on a shuffled three-id set. -/
theorem c8_order_independence_witness :
    make_ete_trees ["agent".toList, "agent0".toList, "agent1".toList] =
      make_ete_trees ["agent1".toList, "agent".toList, "agent0".toList] :=
  c8_order_independence _ _ (by decide) (by decide)

/-- C4: survival classification over a nonempty snapshot mapping and a
window: an agent is observed iff it is present at some timepoint `t` with
`start_fraction * max_time <= t <= end_fraction * max_time`; it is dead iff
its dead flag is truthy at some such timepoint; the dead set is contained in
the observed set; and a window matching zero timepoints yields two empty
sets. -/
theorem c4_survival_classification (data : List Timepoint) (tr : ℚ × ℚ)
    (a : Str) (_hne : data ≠ []) :
    (a ∈ (classifySurvival data tr).1 ↔
      ∃ tp ∈ data, inWindow tr (endTime data) tp.time ∧
        a ∈ tp.agents.map Prod.fst) ∧
    (a ∈ (classifySurvival data tr).2 ↔
      ∃ tp ∈ data, inWindow tr (endTime data) tp.time ∧
        ∃ pr ∈ tp.agents, pr.1 = a ∧ pr.2.getD false = true) ∧
    (a ∈ (classifySurvival data tr).2 → a ∈ (classifySurvival data tr).1) ∧
    ((∀ tp ∈ data, ¬ inWindow tr (endTime data) tp.time) →
      classifySurvival data tr = ([], [])) := by
  unfold classifySurvival
  refine ⟨?_, ?_, ?_, ?_⟩
  · rw [classify_fold_mem1]
    simp
  · rw [classify_fold_mem2]
    simp
  · intro h
    rw [classify_fold_mem2] at h
    rw [classify_fold_mem1]
    rcases h with h | ⟨tp, htp, hw, pr, hpr, rfl, _⟩
    · simp at h
    · exact Or.inr ⟨tp, htp, hw, List.mem_map.mpr ⟨pr, hpr, rfl⟩⟩
  · exact classify_fold_out data tr (endTime data) ([], [])

/-- Witness for C4: in `exData4` with the full window `(0, 1)`, `"agent0"`
is dead at time 10, hence in the dead set, hence also observed. -/
theorem c4_survival_classification_witness :
    exData4 ≠ [] ∧ "agent0".toList ∈ (classifySurvival exData4 (0, 1)).1 := by
  have hwin : inWindow (0, 1) (endTime exData4) 10 := by
    constructor
    · show (0 : ℚ) * endTime exData4 ≤ 10
      rw [zero_mul]
      decide
    · show (10 : ℚ) ≤ 1 * endTime exData4
      rw [one_mul]
      decide
  refine ⟨by decide, ?_⟩
  apply (c4_survival_classification exData4 (0, 1) ("agent0".toList)
    (by decide)).2.2.1
  apply ((c4_survival_classification exData4 (0, 1) ("agent0".toList)
    (by decide)).2.1).mpr
  exact ⟨⟨10, [("agent0".toList, some true), ("agent1".toList, none)]⟩,
    by decide, hwin, ("agent0".toList, some true), by decide, rfl, rfl⟩

/-- C5, counterexample: the columns of the survival report are named `agents` and
`survival` in the code, not `agent_id` and `survived` as the claim states:
at the concrete observed set `{"agent"}` with empty dead set, the report
constructor used by `plot_phylogeny` produces those column names. -/
theorem c5_report_counterexample :
    (buildReport ["agent".toList] []).map Prod.fst =
      ["agents".toList, "survival".toList] ∧
    "agents".toList ≠ "agent_id".toList ∧
    "survival".toList ≠ "survived".toList := by
  refine ⟨rfl, by decide, by decide⟩

/-- C5, amended: the survival report built by `plot_phylogeny` has exactly
one row per agent in `observed_set` (the agents observed within the time
window), with columns named `agents` and `survival` (not `agent_id` and
`survived`), where the survival cell is the 0/1 encoding of the boolean
"agent not in dead_set". -/
theorem c5_report_amended (data : List Timepoint) (tr : ℚ × ℚ) :
    (∀ st df, plot_phylogeny data tr = .ok (st, df) →
      df = buildReport (classifySurvival data tr).1 (classifySurvival data tr).2) ∧
    (buildReport (classifySurvival data tr).1 (classifySurvival data tr).2).map
        Prod.fst = ["agents".toList, "survival".toList] ∧
    (reportRows (classifySurvival data tr).1 (classifySurvival data tr).2).map
        Prod.fst = (classifySurvival data tr).1 ∧
    (classifySurvival data tr).1.Nodup ∧
    ∀ pr ∈ reportRows (classifySurvival data tr).1 (classifySurvival data tr).2,
      pr.2 = if pr.1 ∈ (classifySurvival data tr).2 then 0 else 1 := by
  refine ⟨?_, rfl, ?_, ?_, ?_⟩
  · intro st df h
    unfold plot_phylogeny at h
    cases hmk : make_ete_trees (agentIdsOf data) with
    | error e =>
      rw [hmk] at h
      cases h
    | ok st0 =>
      simp only [hmk] at h
      by_cases hr : st0.roots.length = 1
      · rw [if_pos hr] at h
        injection h with h2
        exact (congrArg Prod.snd h2).symm
      · rw [if_neg hr] at h
        cases h
  · unfold reportRows
    rw [List.map_map]
    have h : (Prod.fst ∘ fun a : Str =>
        (a, if a ∈ (classifySurvival data tr).2 then 0 else 1)) = id :=
      funext fun a => rfl
    rw [h, List.map_id]
  · unfold classifySurvival
    exact (classify_fold_nodup data tr (endTime data) ([], [])
      List.nodup_nil List.nodup_nil).1
  · intro pr hpr
    unfold reportRows at hpr
    obtain ⟨a, _, rfl⟩ := List.mem_map.mp hpr
    rfl

/-- Witness for amended C5 at concrete data. -/
theorem c5_report_amended_witness :
    (buildReport (classifySurvival exData5 (0, 1)).1
      (classifySurvival exData5 (0, 1)).2).map Prod.fst =
      ["agents".toList, "survival".toList] :=
  (c5_report_amended exData5 (0, 1)).2.1

/-- C6, counterexample: the lineage-trace loop enumerates every prefix
`agent[:i]` for `i = 0 .. len(agent)` — for `"agent01"` that includes `""`,
`"a"`, …, which are not of the claimed form `stem + suffix[:i]`; so the
enumerated chain is not exactly the claimed ancestor chain. -/
theorem c6_chain_counterexample :
    ancestorCandidates ("agent01".toList) ≠
      chainFromSpec ("agent".toList) ("01".toList) ∧
    "agent01".toList = "agent".toList ++ "01".toList := by
  refine ⟨by decide, by decide⟩

/-- C6, amended: the loop enumerates all prefixes `agent[:i]` of the full
agent id; the candidates that extend the stem are exactly
`stem + d[:0], …, stem + d[:len(d)]` in root-to-descendant order, and when
the candidates are combined with observed time-series data whose keys all
extend the stem, the traced ancestors are exactly the chain of the spec filtered
by presence — any candidate absent from the observed set (including every
prefix shorter than the stem) is skipped without error. -/
theorem c6_chain_amended (stem d : Str) (observed : List Str)
    (hobs : ∀ o ∈ observed, startsWith stem o = true) :
    (ancestorCandidates (stem ++ d)).filter (startsWith stem) =
      chainFromSpec stem d ∧
    tracedAncestors observed (stem ++ d) =
      (chainFromSpec stem d).filter (fun x => decide (x ∈ observed)) :=
  ⟨candidates_filter stem d, traced_eq hobs⟩

/-- Witness for amended C6 at the example of the spec. -/
theorem c6_chain_amended_witness :
    ((ancestorCandidates ("agent".toList ++ "01".toList)).filter
      (startsWith ("agent".toList)) =
      chainFromSpec ("agent".toList) ("01".toList)) ∧
    tracedAncestors exObs6 ("agent".toList ++ "01".toList) =
      (chainFromSpec ("agent".toList) ("01".toList)).filter
        (fun x => decide (x ∈ exObs6)) :=
  c6_chain_amended ("agent".toList) ("01".toList) exObs6 (by decide)

/-- C9: on a duplicate-free input whose suffixes all parse, `make_ete_trees`
never raises even when the input contains multiple lineage roots: it
succeeds and returns exactly one root per input ID whose parent suffix does
not occur as the suffix of a different input ID; the single-tree guarantee
is enforced only by the caller — `plot_phylogeny` fails its
`len(trees) == 1` assertion whenever more than (or fewer than) one root
comes back. -/
theorem c9_multiple_roots (ids : List Str) (hnd : ids.Nodup)
    (hgood : ∀ a ∈ ids, badSuffix (commonStem ids) a = false) :
    ∃ st, make_ete_trees ids = .ok st ∧
      (rootNamesOf st).Perm (ids.filter (fun x =>
        decide (¬∃ b ∈ ids, b ≠ x ∧
          sfx (commonStem ids) b = (sfx (commonStem ids) x).dropLast))) ∧
      ∀ data tr, agentIdsOf data = ids → st.roots.length ≠ 1 →
        plot_phylogeny data tr = .error .assertionFailed := by
  obtain ⟨st, hok⟩ := make_ok_of_good hgood
  have inv := make_inv hok
  refine ⟨st, hok, ?_, ?_⟩
  · have hsort := sortedIds_sorted ids
    have hndP : (sortedIds ids).Nodup := (sortedIds_perm ids).nodup_iff.mpr hnd
    have hstemP : ∀ b ∈ sortedIds ids, ∃ t, b = commonStem ids ++ t :=
      fun b hb => commonStem_pre ((sortedIds_perm ids).mem_iff.mp hb)
    have h1 : rootNamesOf st = ((List.range st.arena.length).filter
        (newRootAt (commonStem ids) st.arena)).map (nameAt st.arena) := by
      unfold rootNamesOf
      rw [inv.rootsIdx]
    have hLen : st.arena.length = (sortedIds ids).length := inv_len inv
    have h2 : (List.range st.arena.length).filter
        (newRootAt (commonStem ids) st.arena) =
        (List.range (sortedIds ids).length).filter (fun i =>
          decide (¬∃ b ∈ ids, b ≠ (sortedIds ids).getD i [] ∧
            sfx (commonStem ids) b =
              (sfx (commonStem ids) ((sortedIds ids).getD i [])).dropLast)) := by
      rw [hLen]
      apply List.filter_congr
      intro i hi
      have hiL : i < (sortedIds ids).length := List.mem_range.mp hi
      rw [newRootAt_eq_P inv i, decide_eq_decide]
      rw [cond_iff_elem hsort hndP hstemP hiL]
      apply not_congr
      constructor
      · rintro ⟨b, hb, h3, h4⟩
        exact ⟨b, (sortedIds_perm ids).mem_iff.mp hb, h3, h4⟩
      · rintro ⟨b, hb, h3, h4⟩
        exact ⟨b, (sortedIds_perm ids).mem_iff.mpr hb, h3, h4⟩
    have h4 : (((List.range (sortedIds ids).length).filter (fun i =>
        decide (¬∃ b ∈ ids, b ≠ (sortedIds ids).getD i [] ∧
          sfx (commonStem ids) b =
            (sfx (commonStem ids) ((sortedIds ids).getD i [])).dropLast))).map
          (nameAt st.arena)) =
        (((List.range (sortedIds ids).length).filter (fun i =>
          decide (¬∃ b ∈ ids, b ≠ (sortedIds ids).getD i [] ∧
            sfx (commonStem ids) b =
              (sfx (commonStem ids) ((sortedIds ids).getD i [])).dropLast))).map
          (fun i => (sortedIds ids).getD i [])) := by
      apply List.map_congr_left
      intro i _
      rw [nameAt_eq_getD, inv.names]
    have h5 : ((List.range (sortedIds ids).length).filter (fun i =>
        decide (¬∃ b ∈ ids, b ≠ (sortedIds ids).getD i [] ∧
          sfx (commonStem ids) b =
            (sfx (commonStem ids) ((sortedIds ids).getD i [])).dropLast))).map
        (fun i => (sortedIds ids).getD i []) =
        (sortedIds ids).filter (fun x =>
          decide (¬∃ b ∈ ids, b ≠ x ∧
            sfx (commonStem ids) b = (sfx (commonStem ids) x).dropLast)) :=
      range_filter_map_getD (sortedIds ids)
        (fun x => decide (¬∃ b ∈ ids, b ≠ x ∧
          sfx (commonStem ids) b = (sfx (commonStem ids) x).dropLast)) []
    rw [h1, h2, h4, h5]
    exact (sortedIds_perm ids).filter _
  · intro data tr hids hroots
    unfold plot_phylogeny
    rw [hids]
    simp only [hok]
    rw [if_neg hroots]

/-- Witness for C9 on the two-root input `["a0", "a1"]`. -/
theorem c9_multiple_roots_witness :
    ∃ st, make_ete_trees exIds9 = .ok st ∧
      (rootNamesOf st).Perm (exIds9.filter (fun x =>
        decide (¬∃ b ∈ exIds9, b ≠ x ∧
          sfx (commonStem exIds9) b = (sfx (commonStem exIds9) x).dropLast))) ∧
      ∀ data tr, agentIdsOf data = exIds9 → st.roots.length ≠ 1 →
        plot_phylogeny data tr = .error .assertionFailed :=
  c9_multiple_roots exIds9 (by decide) (by decide)

/-- C10: duplicated input IDs are not an error: on any input whose suffixes
all parse — duplicates included — the call succeeds, a separate node is
created for each occurrence (the arena size and the total node count of the
returned trees both equal the input length counting duplicates), the
suffix-to-node binding is the most recently created node with that suffix
(the later occurrence silently overwrites the earlier one), and every child
attaches to the most recently created node carrying its parent suffix. -/
theorem c10_duplicate_ids (ids : List Str)
    (hgood : ∀ a ∈ ids, badSuffix (commonStem ids) a = false) :
    ∃ st, make_ete_trees ids = .ok st ∧
      st.arena.length = ids.length ∧
      (visitIdx st).length = ids.length ∧
      (∀ k i, mapFind st.idNodeMap k = some i →
        i < st.arena.length ∧ sfx (commonStem ids) (nameAt st.arena i) = k ∧
        ∀ j, i < j → j < st.arena.length →
          sfx (commonStem ids) (nameAt st.arena j) ≠ k) ∧
      (∀ p c np, st.arena[p]? = some np → c ∈ np.children →
        (sfx (commonStem ids) (nameAt st.arena c)).dropLast =
          sfx (commonStem ids) (nameAt st.arena p) ∧
        ∀ j, p < j → j < c →
          sfx (commonStem ids) (nameAt st.arena j) ≠
            sfx (commonStem ids) (nameAt st.arena p)) := by
  obtain ⟨st, hok⟩ := make_ok_of_good hgood
  have inv := make_inv hok
  have hlen : st.arena.length = ids.length := by
    rw [inv_len inv]
    exact (sortedIds_perm ids).length_eq
  refine ⟨st, hok, hlen, ?_, ?_, ?_⟩
  · rw [visitIdx_length inv]
    exact (sortedIds_perm ids).length_eq
  · intro k i h
    exact inv.mapSome k i h
  · intro p c np hp hc
    have h := inv.edges p c ⟨np, hp, hc⟩
    exact ⟨h.2.2.1, h.2.2.2⟩

/-- Witness for C10 on an input with a duplicated id. -/
theorem c10_duplicate_ids_witness :
    ∃ st, make_ete_trees exIds10 = .ok st ∧
      st.arena.length = exIds10.length ∧
      (visitIdx st).length = exIds10.length ∧
      (∀ k i, mapFind st.idNodeMap k = some i →
        i < st.arena.length ∧ sfx (commonStem exIds10) (nameAt st.arena i) = k ∧
        ∀ j, i < j → j < st.arena.length →
          sfx (commonStem exIds10) (nameAt st.arena j) ≠ k) ∧
      (∀ p c np, st.arena[p]? = some np → c ∈ np.children →
        (sfx (commonStem exIds10) (nameAt st.arena c)).dropLast =
          sfx (commonStem exIds10) (nameAt st.arena p) ∧
        ∀ j, p < j → j < c →
          sfx (commonStem exIds10) (nameAt st.arena j) ≠
            sfx (commonStem exIds10) (nameAt st.arena p)) :=
  c10_duplicate_ids exIds10 (by decide)
